import Mathlib

/-!
# rosbag-engine: verification of the natural-language specification

Shallow embedding of the core components of the `rosbag-engine` repository:

* `Time` and its operations (from `@foxglove/rostime`, the external time
  library the player uses; `compare` is lexicographic, `clampTime` clamps,
  `add` normalizes nanoseconds);
* byte ranges and `isRangeCoveredByRanges` / canonical range-set operations
  (from `packages/downloader/src/util/CachedFilelike/ranges.ts` and the
  documented behaviour of the external `intervals-fn` library);
* `VirtualLRUBuffer`
  (from `packages/downloader/src/util/CachedFilelike/VirtualLRUBuffer.ts`);
* `CachedFilelike` (from `packages/downloader/src/util/CachedFilelike/index.ts`);
* `BagIterableSource.getBackfillMessages`
  (from `packages/parser/src/adapters/BagIterableSource.ts`);
* `RosbagPlayer` (from `packages/player/src/Player.ts`).

JavaScript numbers are embedded as `Int`/`Nat` (all quantities involved are
integral in the source), byte arrays as `List Nat`, promises as explicit
outcome values, and the single-threaded async state machine as explicit
state-passing functions.
-/

namespace Rosbag

/-! ## Time (`@foxglove/rostime`)

`Time` is a pair `(sec, nsec)`; comparison is lexicographic.  The library
functions used by the player are `compare`, `clampTime`, `add` and
`fromNanoSec`; they are embedded here following the library's semantics,
which §3 of the spec records (normalizing addition, lexicographic compare).
-/

structure Time where
  sec : Int
  nsec : Int
  deriving DecidableEq, Repr

/-- `compare(a, b)` from rostime: negative iff `a < b` lexicographically,
`0` iff equal, positive iff `a > b`.  We only need its sign. -/
def tcompare (a b : Time) : Int :=
  if a.sec ≠ b.sec then a.sec - b.sec else a.nsec - b.nsec

/-- `isLessThan` / `compare < 0`. -/
def timeLt (a b : Time) : Bool := tcompare a b < 0

/-- `compare ≤ 0`. -/
def timeLe (a b : Time) : Bool := tcompare a b ≤ 0

/-- `clampTime(time, start, end)` from rostime: clamp into `[start, end]`. -/
def clampTime (t start_ end_ : Time) : Time :=
  if tcompare start_ t > 0 then start_
  else if tcompare end_ t < 0 then end_
  else t

/-- `add(a, b)` from rostime, normalizing `nsec` into `[0, 1e9)`. -/
def timeAdd (a b : Time) : Time :=
  let sec := a.sec + b.sec
  let nsec := a.nsec + b.nsec
  if nsec ≥ 1000000000 then { sec := sec + 1, nsec := nsec - 1000000000 }
  else { sec := sec, nsec := nsec }

/-- `fromNanoSec(n)` from rostime. -/
def fromNanoSec (n : Int) : Time :=
  { sec := n / 1000000000, nsec := n % 1000000000 }

/-! ## Byte ranges (`ranges.ts` and the `intervals-fn` library)

`ranges.ts` defines `Range {start, end}` (half-open) and
`isRangeCoveredByRanges`; the canonical range-set algebra
(`simplify(unify(...))`, `simplify(substract(...))`) comes from the external
`intervals-fn` library, embedded here by its documented behaviour: the union
and difference of half-open integer ranges as a canonical list — sorted,
disjoint, non-touching, no empty ranges.  `end` is a Lean keyword, so the
field is named `stop`.
-/

structure BRange where
  start : Nat
  stop : Nat
  deriving DecidableEq, Repr

/-- `intervals-fn` `isBefore(a, b)`: `a` lies entirely before `b`
(touching counts). -/
def isBefore (a b : BRange) : Bool := a.stop ≤ b.start

/-- `intervals-fn` `isDuring(a, b)`: `a` is contained in `b`. -/
def isDuring (a b : BRange) : Bool := b.start ≤ a.start && a.stop ≤ b.stop

/-- `isRangeCoveredByRanges(queryRange, ranges)` from `ranges.ts`: scan the
canonical list; a range strictly after the query ends the scan. -/
def isRangeCoveredByRanges (queryRange : BRange) : List BRange → Bool
  | [] => false
  | r :: rest =>
    if isBefore queryRange r then false
    else if isDuring queryRange r then true
    else isRangeCoveredByRanges queryRange rest

/-- A point is covered by a range list. -/
def coversB (rs : List BRange) (x : Nat) : Bool :=
  rs.any fun r => r.start ≤ x && x < r.stop

/-- Insert a (nonempty) range into a canonical list, merging overlapping
and touching neighbours: `simplify(unify([r], rs))` of `intervals-fn`. -/
def unifyInsert (r : BRange) : List BRange → List BRange
  | [] => [r]
  | q :: rest =>
    if r.stop < q.start then r :: q :: rest
    else if q.stop < r.start then q :: unifyInsert r rest
    else unifyInsert ⟨min r.start q.start, max r.stop q.stop⟩ rest

/-- `simplify(unify([r], rs))`: `intervals-fn` drops an empty inserted
range. -/
def unifySimplify (r : BRange) (rs : List BRange) : List BRange :=
  if r.start < r.stop then unifyInsert r rs else rs

/-- One canonical range minus a cut, as up to two residual pieces. -/
def rangeSub1 (q cut : BRange) : List BRange :=
  (if q.start < min q.stop cut.start then [⟨q.start, min q.stop cut.start⟩] else [])
    ++ (if max q.start cut.stop < q.stop then [⟨max q.start cut.stop, q.stop⟩] else [])

/-- `simplify(substract(rs, [cut]))` of `intervals-fn`: remove the cut from
every element of a canonical list. -/
def subtractRanges (rs : List BRange) (cut : BRange) : List BRange :=
  rs.flatMap (rangeSub1 · cut)

/-- Canonical form: nonempty ranges, sorted, with gaps between successive
ranges (no overlap, no touching). -/
def Canon (rs : List BRange) : Prop :=
  (∀ r ∈ rs, r.start < r.stop) ∧ rs.Pairwise fun r q => r.stop < q.start

/-! ## VirtualLRUBuffer

From `packages/downloader/src/util/CachedFilelike/VirtualLRUBuffer.ts`.
State: logical size `byteLength`, `blockSize`, optional maximum resident
block count `numberOfBlocks` (`none` embeds the default `Infinity`), the
resident blocks as an association list index ↦ bytes, the LRU order
`lastAccessedBlockIndices` (least recently used first) and the canonical
list `rangesWithData`.  Bytes are `Nat`s; a JavaScript `Uint8Array` is a
`List Nat`.  Out-of-bounds element stores on a `Uint8Array` are silently
dropped, which the embedding of `#copy` reproduces.
-/

structure VLB where
  byteLength : Nat
  blockSize : Nat
  numberOfBlocks : Option Nat
  blocks : List (Nat × List Nat)
  lastAccessedBlockIndices : List Nat
  rangesWithData : List BRange
  deriving DecidableEq, Repr

/-- Association-list lookup for the `blocks` sparse array. -/
def blookup (i : Nat) : List (Nat × List Nat) → Option (List Nat)
  | [] => none
  | (j, b) :: rest => if i = j then some b else blookup i rest

/-- `delete this.#blocks[index]`. -/
def bremove (i : Nat) (l : List (Nat × List Nat)) : List (Nat × List Nat) :=
  l.filter fun p => p.fst != i

/-- Size of block `index`: `blockSize`, trimmed for the final block
(`VirtualLRUBuffer.#getBlock`, allocation branch). -/
def blockSizeAt (s : VLB) (index : Nat) : Nat :=
  if (index + 1) * s.blockSize > s.byteLength then s.byteLength % s.blockSize
  else s.blockSize

/-- `VirtualLRUBuffer.#copy(source, target, targetStart, sourceStart)` with
the default `sourceEnd` (= `source.byteLength`): JavaScript loop
`target[targetStart+i] = source[sourceStart+i]` for `i < count`, where an
out-of-bounds store on the target is a no-op. -/
def jsCopy (source target : List Nat) (targetStart sourceStart : Nat) : List Nat :=
  let count := source.length - sourceStart
  target.mapIdx fun j b =>
    if targetStart ≤ j ∧ j < targetStart + count then source.getD (sourceStart + (j - targetStart)) 0
    else b

/-- Allocation step of `#getBlock`: `if (!this.#blocks[index])` allocate a
zeroed slab of the configured (trimmed) size. -/
def allocBlocks (s : VLB) (index : Nat) : List (Nat × List Nat) :=
  if (blookup index s.blocks).isSome then s.blocks
  else (index, List.replicate (blockSizeAt s index) 0) :: s.blocks

/-- LRU promotion step of `#getBlock`: move `index` to the end, avoiding
duplicates. -/
def touchLRU (lru : List Nat) (index : Nat) : List Nat :=
  (lru.filter fun j => j != index) ++ [index]

/-- Eviction step of `#getBlock`: when the resident count exceeds
`numberOfBlocks`, shift the least-recently-used index, delete its slab and
subtract its logical range from `rangesWithData`. -/
def evictIfNeeded (s : VLB) : VLB :=
  match s.numberOfBlocks with
  | none => s
  | some m =>
    if m < s.lastAccessedBlockIndices.length then
      match s.lastAccessedBlockIndices with
      | [] => s
      | d :: rest =>
        { s with
          blocks := bremove d s.blocks
          lastAccessedBlockIndices := rest
          rangesWithData :=
            subtractRanges s.rangesWithData ⟨d * s.blockSize, (d + 1) * s.blockSize⟩ }
    else s

/-- `VirtualLRUBuffer.#getBlock(index)`: allocate the block if absent,
promote it to most-recently-used, evict the least-recently-used block when
the resident count exceeds `numberOfBlocks` (removing the evicted block's
logical range from `rangesWithData`), and return the block.  The source
throws if the block is absent after eviction; that is unreachable for the
configurations the repository creates (`numberOfBlocks ≥ 1`), and the
embedding returns `[]` there. -/
def getBlock (s : VLB) (index : Nat) : VLB × List Nat :=
  let s1 := { s with
    blocks := allocBlocks s index
    lastAccessedBlockIndices := touchLRU s.lastAccessedBlockIndices index }
  let s2 := evictIfNeeded s1
  (s2, (blookup index s2.blocks).getD [])

/-- `VirtualLRUBuffer.#calculatePosition(position)`: `none` embeds the
throw on an out-of-range position (`position < 0` cannot occur for `Nat`).
Returns the updated state (its `#getBlock` call mutates), the block index,
the position within the block, and `remainingBytesInBlock`. -/
def calculatePosition (s : VLB) (position : Nat) : Option (VLB × Nat × Nat × Nat) :=
  if position ≥ s.byteLength then none
  else
    let blockIndex := position / s.blockSize
    let positionInBlock := position - blockIndex * s.blockSize
    let r := getBlock s blockIndex
    some (r.1, blockIndex, positionInBlock, r.2.length - positionInBlock)

/-- `hasData(start, end)`. -/
def hasData (s : VLB) (start stop : Nat) : Bool :=
  isRangeCoveredByRanges ⟨start, stop⟩ s.rangesWithData

/-- The `while` loop of `copyFrom`, with explicit fuel (the source loop
always terminates or throws; the fuel the callers pass is proven
sufficient, `none` is the out-of-fuel artifact).  The result's `Bool` is
`true` when the iteration throws (from `#calculatePosition`); the state at
that moment is returned alongside, as the JavaScript object keeps its
mutations when `copyFrom` throws. -/
def copyFromLoop (source : List Nat) (targetStart : Nat) :
    Nat → VLB → Nat → Option (Bool × VLB)
  | 0, s, position =>
    if position < targetStart + source.length then none else some (false, s)
  | fuel + 1, s, position =>
    if position < targetStart + source.length then
      match calculatePosition s position with
      | none => some (true, s)
      | some (s1, blockIndex, positionInBlock, remaining) =>
        let r := getBlock s1 blockIndex
        let blk2 := jsCopy source r.2 positionInBlock (position - targetStart)
        let s3 := { r.1 with blocks := (blockIndex, blk2) :: bremove blockIndex r.1.blocks }
        copyFromLoop source targetStart fuel s3 (position + remaining)
    else some (false, s)

/-- `copyFrom(source, targetStart)`: validate, run the copy loop, then
record the written range in `rangesWithData`.  The `Bool` is `true` when
the call throws. -/
def copyFrom (s : VLB) (source : List Nat) (targetStart : Int) : Option (Bool × VLB) :=
  if targetStart < 0 ∨ targetStart ≥ (s.byteLength : Int) then some (true, s)
  else
    match copyFromLoop source targetStart.toNat (source.length + 1) s targetStart.toNat with
    | none => none
    | some (true, s') => some (true, s')
    | some (false, s') =>
      some (false, { s' with
        rangesWithData :=
          unifySimplify ⟨targetStart.toNat, targetStart.toNat + source.length⟩
            s'.rangesWithData })

/-- The assembly loop of `slice` for a multi-block range (fuel as in
`copyFromLoop`; the `#calculatePosition` call cannot throw here because
`position < stop ≤ byteLength`, and `none` from it is mapped to the fuel
artifact). -/
def sliceLoop (stop startPos : Nat) :
    Nat → VLB → Nat → List Nat → Option (VLB × List Nat)
  | 0, s, position, acc => if position < stop then none else some (s, acc)
  | fuel + 1, s, position, acc =>
    if position < stop then
      match calculatePosition s position with
      | none => none
      | some (s1, blockIndex, positionInBlock, remaining) =>
        let r := getBlock s1 blockIndex
        let acc2 := jsCopy r.2 acc (position - startPos) positionInBlock
        sliceLoop stop startPos fuel r.1 (position + remaining) acc2
    else some (s, acc)

/-- `kMaxLength = 2 ** 32`. -/
def kMaxLength : Nat := 2 ^ 32

/-- `slice(start, end)`: validate (`start < 0` cannot occur for `Nat`),
require `hasData`, then either the single-block fast path
(`Uint8Array.slice`, a copy) or the multi-block assembly into a fresh
zeroed result.  The `Bool` is `true` when the call throws. -/
def sliceVLB (s : VLB) (start stop : Nat) : Option (Bool × VLB × List Nat) :=
  let size := stop - start
  if stop > s.byteLength ∨ stop ≤ start ∨ size > kMaxLength then some (true, s, [])
  else if ¬ hasData s start stop then some (true, s, [])
  else
    match calculatePosition s start with
    | none => some (true, s, [])
    | some (s1, blockIndex, positionInBlock, remaining) =>
      if size ≤ remaining then
        let r := getBlock s1 blockIndex
        some (false, r.1, ((r.2.drop positionInBlock).take size))
      else
        match sliceLoop stop start (size + 1) s1 start (List.replicate size 0) with
        | none => none
        | some (s2, data) => some (false, s2, data)

/-- The byte the buffer holds at logical position `x` (0 for an absent
block, as a freshly allocated block is zeroed). -/
def vread (s : VLB) (x : Nat) : Nat :=
  ((blookup (x / s.blockSize) s.blocks).getD []).getD (x % s.blockSize) 0

/-- Block index of the first byte of a write at `t`. -/
def firstBlockIndex (s : VLB) (t : Nat) : Nat := t / s.blockSize

/-- Block index of the last byte of a write of `len` bytes at `t`. -/
def lastBlockIndex (s : VLB) (t len : Nat) : Nat := (t + len - 1) / s.blockSize

/-- Number of blocks a write of `len (> 0)` bytes at `t` touches. -/
def spanBlocks (s : VLB) (t len : Nat) : Nat :=
  lastBlockIndex s t len + 1 - firstBlockIndex s t

/-- Well-formedness of a `VirtualLRUBuffer` state: positive block size, the
LRU list has no duplicates and mirrors the resident set, resident blocks
have their configured size and lie inside the logical range, the resident
count respects `numberOfBlocks` (which is at least 1 in every configuration
the repository constructs), and `rangesWithData` is canonical and inside
the logical range. -/
structure WF (s : VLB) : Prop where
  bpos : 0 < s.blockSize
  lruNodup : s.lastAccessedBlockIndices.Nodup
  residentIff : ∀ i, (blookup i s.blocks).isSome ↔ i ∈ s.lastAccessedBlockIndices
  lengths : ∀ i b, blookup i s.blocks = some b → b.length = blockSizeAt s i
  bounds : ∀ i, (blookup i s.blocks).isSome → i * s.blockSize < s.byteLength
  maxOK : match s.numberOfBlocks with
          | none => True
          | some m => 1 ≤ m ∧ s.lastAccessedBlockIndices.length ≤ m
  canon : Canon s.rangesWithData
  rangesBounded : ∀ r ∈ s.rangesWithData, r.stop ≤ s.byteLength

/-- The invariant claimed in the spec: every filled byte belongs to a
currently resident block. -/
def FilledSubResident (s : VLB) : Prop :=
  ∀ x, coversB s.rangesWithData x = true → (blookup (x / s.blockSize) s.blocks).isSome

/-- Constructor `new VirtualLRUBuffer({size, blockSize?, numberOfBlocks?})`
with both optional parameters defaulted as in the source
(`blockSize = trunc(kMaxLength / 2)`, `numberOfBlocks = Infinity`). -/
def mkVLB (size : Nat) (blockSize : Option Nat) (numberOfBlocks : Option Nat) : VLB :=
  { byteLength := size
    blockSize := blockSize.getD (kMaxLength / 2)
    numberOfBlocks := numberOfBlocks
    blocks := []
    lastAccessedBlockIndices := []
    rangesWithData := [] }

/-- The operations of the claimed trace: `write` (`copyFrom`), `has`
(`hasData`), `slice`. -/
inductive VLBOp where
  | write (source : List Nat) (targetStart : Int)
  | has (start stop : Nat)
  | slice (start stop : Nat)
  deriving DecidableEq, Repr

/-- State reached after an operation (`has` reads only; the fuel artifact
`none` — proven unreachable on well-formed states — keeps the state). -/
def applyOp (s : VLB) : VLBOp → VLB
  | .write source targetStart =>
    match copyFrom s source targetStart with
    | some (_, s') => s'
    | none => s
  | .has _ _ => s
  | .slice start stop =>
    match sliceVLB s start stop with
    | some (_, s', _) => s'
    | none => s

/-! ## CachedFilelike.read: synchronous disposition of a read call

From `CachedFilelike.read(offset, length)`
(`packages/downloader/src/util/CachedFilelike/index.ts`, lines 169-206).
The method settles or queues the returned promise:

* `length === 0` resolves with the empty byte sequence at once (this check
  is the first statement of the method);
* `offset < 0 || length < 0` rejects;
* `length > cacheSizeInBytes` rejects;
* after `open()`, `offset + length > fileSize` rejects;
* otherwise the read is pushed onto `readRequests` (pending).

The claim-relevant behaviour on an *opened* file is the pure disposition
below; `ReadDisposition` records how the returned promise is settled (or
queued) by the call itself.
-/

inductive ReadDisposition where
  /-- The promise resolves synchronously with the empty byte sequence. -/
  | resolveEmpty : ReadDisposition
  /-- The promise is rejected by the validation logic. -/
  | reject : ReadDisposition
  /-- The read is enqueued on `readRequests`, to be settled later. -/
  | enqueue : ReadDisposition
  deriving DecidableEq, Repr

/-- The disposition `CachedFilelike.read(offset, length)` gives to its
promise on an opened file of size `fileSize` with cache budget
`cacheBudget`, mirroring the order of the checks in the source. -/
def readDisposition (cacheBudget fileSize offset length : Int) : ReadDisposition :=
  if length = 0 then .resolveEmpty
  else if offset < 0 ∨ length < 0 then .reject
  else if length > cacheBudget then .reject
  else if offset + length > fileSize then .reject
  else .enqueue

/-! ## CachedFilelike: full state model

From `packages/downloader/src/util/CachedFilelike/index.ts`.  The state of
an opened `CachedFilelike`: the file size, the cache budget, the
`VirtualLRUBuffer`, the ordered queue of pending reads, connection and
error bookkeeping, and — as the observable output of the model — the
ordered log of promise settlements (`settled`).  A pending read is
identified by a caller-chosen `id`; errors are tokens (`Nat`).  The single
in-flight stream is represented by its `remainingRange`; the
stream-identity guards of the source (`stream !== currentConnection.stream`)
are represented by only feeding events of the current stream to the model.
-/

structure PendingRead where
  id : Nat
  rstart : Nat
  rstop : Nat
  deriving DecidableEq, Repr

inductive ReadOutcome where
  | resolved (data : List Nat) : ReadOutcome
  | rejected (err : Nat) : ReadOutcome
  deriving DecidableEq, Repr

structure CacheSt where
  fileSize : Nat
  cacheSizeInBytes : Int
  virtualBuffer : VLB
  readRequests : List PendingRead
  lastResolvedCallbackEnd : Option Nat
  keepReconnectingCallback : Bool
  lastErrorTime : Option Nat
  closed : Bool
  currentConnection : Option BRange
  settled : List (Nat × ReadOutcome)
  deriving DecidableEq, Repr

/-- `CLOSE_ENOUGH_BYTES_TO_NOT_START_NEW_CONNECTION`. -/
def CLOSE_ENOUGH_BYTES : Nat := 1024 * 1024 * 5

/-- `req \ have`: the parts of `req` not yet downloaded (canonical). -/
def missingParts (req : BRange) (have_ : List BRange) : List BRange :=
  have_.foldl (fun acc h => subtractRanges acc h) [req]

/-- Modelled from the spec: the repository's
`CachedFilelike/getNewConnection.ts` is imported by `index.ts` but absent
from the sources; §4.4 "Connection-decision policy" specifies it.  No
pending read, or nothing missing from the first pending read's range:
no new connection.  If a connection exists whose `remaining.start` lies
within the missing part, or before it with a gap of at most
`continueDownloadingThreshold`: keep it.  Otherwise connect from
`missing.start` up to the smallest of the end of the request, the start of
the next downloaded range, and `start + maxRequestSize` — extended toward
`fileSize` (still capped by `maxRequestSize`) when `lastResolvedCallbackEnd`
indicates sequential reading (`req.start = lastResolvedCallbackEnd`). -/
def getNewConnection (currentRemainingRange : Option BRange)
    (readRequestRange : Option BRange) (downloadedRanges : List BRange)
    (lastResolvedCallbackEnd : Option Nat) (maxRequestSize fileSize : Nat)
    (continueDownloadingThreshold : Nat) : Option BRange :=
  match readRequestRange with
  | none => none
  | some req =>
    match missingParts req downloadedRanges with
    | [] => none
    | missing :: _ =>
      let keep :=
        match currentRemainingRange with
        | none => false
        | some rem =>
          missing.start ≤ rem.start && rem.start < missing.stop
            || rem.start ≤ missing.start
                && missing.start - rem.start ≤ continueDownloadingThreshold
      if keep then none
      else
        let nextDownloadedStart :=
          (downloadedRanges.filter fun r => missing.start < r.start).foldr
            (fun r acc => min r.start acc) fileSize
        let upper :=
          if lastResolvedCallbackEnd = some req.start then
            min fileSize (missing.start + maxRequestSize)
          else min req.stop (min nextDownloadedStart (missing.start + maxRequestSize))
        some ⟨missing.start, upper⟩

/-- The cache-hit pass of `#updateState`: walk `readRequests` in order,
settling every request whose range the buffer covers (slicing mutates the
buffer's LRU bookkeeping, so the buffer is threaded through), updating
`lastResolvedCallbackEnd` to the end of each resolved range.  Returns the
buffer, the final `lastResolvedCallbackEnd`, the surviving queue and the
settlements in order. -/
def resolvePass (buf : VLB) (lastEnd : Option Nat) :
    List PendingRead → VLB × Option Nat × List PendingRead × List (Nat × ReadOutcome)
  | [] => (buf, lastEnd, [], [])
  | req :: rest =>
    if hasData buf req.rstart req.rstop then
      match sliceVLB buf req.rstart req.rstop with
      | some (_, buf2, data) =>
        let r := resolvePass buf2 (some req.rstop) rest
        (r.1, r.2.1, r.2.2.1, (req.id, .resolved data) :: r.2.2.2)
      | none => (buf, lastEnd, req :: rest, [])
    else
      let r := resolvePass buf lastEnd rest
      (r.1, r.2.1, req :: r.2.2.1, r.2.2.2)

/-- `#updateState()`: a no-op once `closed`; otherwise resolve cache hits
in queue order, then consult the connection policy and, if it asks for a
new range, replace the current connection (`#setConnection` destroys the
old stream and starts a new one for that range). -/
def updateState (s : CacheSt) : CacheSt :=
  if s.closed then s
  else
    let r := resolvePass s.virtualBuffer s.lastResolvedCallbackEnd s.readRequests
    let s1 := { s with virtualBuffer := r.1, lastResolvedCallbackEnd := r.2.1,
                       readRequests := r.2.2.1, settled := s.settled ++ r.2.2.2 }
    match getNewConnection s1.currentConnection
        (s1.readRequests.head?.map fun q => ⟨q.rstart, q.rstop⟩)
        s1.virtualBuffer.rangesWithData s1.lastResolvedCallbackEnd
        s1.cacheSizeInBytes.toNat s1.fileSize CLOSE_ENOUGH_BYTES with
    | none => s1
    | some range => { s1 with currentConnection := some range }

/-- The stream `error` handler installed by `#setConnection`, for an error
`e` of the *current* stream at wall-clock time `now` (milliseconds).  With
a reconnect callback the connection is dropped and rebuilt; without one,
a second error within 100 ms latches `closed` and rejects every pending
read with `e` (the queue array itself is not cleared — the promises are
settled); otherwise the error time is recorded and the state update
re-runs. -/
def onStreamError (now e : Nat) (s : CacheSt) : CacheSt :=
  if s.currentConnection.isNone then s
  else if s.keepReconnectingCallback then
    updateState { s with lastErrorTime := some now, currentConnection := none }
  else
    match s.lastErrorTime with
    | some t =>
      if now - t < 100 then
        { s with closed := true,
                 settled := s.settled ++ s.readRequests.map fun q => (q.id, .rejected e) }
      else updateState { s with lastErrorTime := some now, currentConnection := none }
    | none => updateState { s with lastErrorTime := some now, currentConnection := none }

/-- `read(offset, length)` on an opened cache, issuing request `id`:
the disposition of `readDisposition` plus, for `enqueue`, pushing the
request and running `#updateState` (the source does not consult `closed`
here).  Returns the new state and the disposition. -/
def issueRead (id : Nat) (offset length : Int) (s : CacheSt) : CacheSt × ReadDisposition :=
  match readDisposition s.cacheSizeInBytes s.fileSize offset length with
  | .enqueue =>
    (updateState { s with readRequests :=
        s.readRequests ++ [⟨id, offset.toNat, (offset + length).toNat⟩] }, .enqueue)
  | d => (s, d)

/-! ## BagIterableSource (`packages/parser/src/adapters/BagIterableSource.ts`)

A bag record is `{topic, timestamp, payload}`; message payload contents are
irrelevant to the claims and are a token.  The external `@foxglove/rosbag`
`Bag.messageIterator` is embedded by its contract (the decoder is a
black-box collaborator; §4.5/§6 of the spec): given the bag's records in
chronological order, forward iteration yields the records with
`timestamp ≥ start` (filtered by topic) in order, reverse iteration the
records with `timestamp ≤ start` in reverse chronological order.  Records
are assumed to come from connections registered by `initialize()` (each
has a schema and a reader), so every record yields a message event. -/

structure BagMsg where
  topic : String
  ts : Time
  payload : Nat
  deriving DecidableEq, Repr

/-- External `Bag.messageIterator({topics, reverse, start})`, by contract. -/
def bagMessageIterator (records : List BagMsg) (topics : List String)
    (reverse : Bool) (start : Option Time) : List BagMsg :=
  let filtered := records.filter fun r =>
    topics.contains r.topic &&
      (match start with
       | none => true
       | some st => if reverse then timeLe r.ts st else timeLe st r.ts)
  if reverse then filtered.reverse else filtered

/-- `BagIterableSource.messageIterator(args)`: delegate to the bag
iterator; a message past `args.end` ends the iteration (`return`).  Every
yielded item is a message event whose `receiveTime` is the record
timestamp. -/
def srcMessageIterator (records : List BagMsg) (topics : List String)
    (start : Option Time) (endT : Option Time) (reverse : Bool) : List BagMsg :=
  (bagMessageIterator records topics reverse start).takeWhile fun r =>
    match endT with
    | none => true
    | some e => !(tcompare r.ts e > 0)

/-- The per-topic collection loop of `getBackfillMessages`: for each
requested topic, take the first item of a fresh reverse iterator started
at `time` (the `for await … break` loop breaks unconditionally after the
first item). -/
def backfillCollect (records : List BagMsg) (topics : List String)
    (time : Time) : List BagMsg :=
  topics.foldr
    (fun tp acc =>
      match (srcMessageIterator records [tp] (some time) none true).head? with
      | some m => m :: acc
      | none => acc) []

/-- `BagIterableSource.getBackfillMessages({topics, time})`: collect one
message per topic, then sort by `receiveTime`
(JavaScript `Array.prototype.sort` is stable; embedded as insertion
sort). -/
def getBackfillMessages (records : List BagMsg) (topics : List String)
    (time : Time) : List BagMsg :=
  (backfillCollect records topics time).insertionSort fun a b => timeLe a.ts b.ts

/-! ## RosbagPlayer (`packages/player/src/Player.ts`)

The playback state machine, over a `BagIterableSource` whose records are
the `records` field.  The single-threaded async execution is embedded as
explicit state passing: awaited listener calls append to the `emitted`
log (emissions are serialized, so the log order is delivery order), the
forward message iterator is the list of its not-yet-consumed items, timers
that only matter on slow paths (`seekAckTimeout`, the 500 ms tick timeout,
the 16 ms frame pacing delay, the 100 ms start delay) do not fire on the
synchronous fast path the pure model takes, and `AbortController` is a
flag (`abortSet`).  A state body that throws is an `.error` carrying the
object's state at the throw (JavaScript keeps mutations made before a
throw); `runState` catches it, logs, and emits once. -/

inductive PlayerStateTag where
  | preinit | initState | startPlay | idle | seekBackfill | play | close
  | resetPlaybackIterator
  deriving DecidableEq, Repr

inductive Presence where
  | NOT_PRESENT | INITIALIZING | RECONNECTING | BUFFERING | PRESENT | ERROR
  deriving DecidableEq, Repr

structure Snapshot where
  state : PlayerStateTag
  presence : Presence
  messages : List BagMsg
  currentTime : Option Time
  startTime : Option Time
  endTime : Option Time
  isPlaying : Bool
  speed : Rat
  topics : List String
  deriving DecidableEq, Repr

structure Player where
  state : PlayerStateTag
  nextState : Option PlayerStateTag
  listener : Bool
  records : List BagMsg
  sourceTopics : List String
  initOk : Bool
  abortSet : Bool
  isPlaying : Bool
  speed : Rat
  currentTime : Option Time
  startTime : Option Time
  endTime : Option Time
  untilTime : Option Time
  seekTarget : Option Time
  topics : List String
  subscriptions : List String
  allTopics : List String
  messages : List BagMsg
  presence : Presence
  playbackIterator : Option (List BagMsg)
  emitted : List Snapshot
  deriving DecidableEq, Repr

/-- The snapshot `emitStateImpl` builds (`progress` is constant in the
model and omitted). -/
def mkSnapshot (s : Player) : Snapshot :=
  { state := s.state, presence := s.presence, messages := s.messages,
    currentTime := s.currentTime, startTime := s.startTime,
    endTime := s.endTime, isPlaying := s.isPlaying, speed := s.speed,
    topics := s.topics }

/-- `emitStateImpl` (= `queueEmitState`): without a listener, nothing;
otherwise move the outgoing messages out (replace with the empty array)
and deliver the snapshot. -/
def emitStateImpl (s : Player) : Player :=
  if s.listener then
    { s with messages := [], emitted := s.emitted ++ [mkSnapshot s] }
  else s

/-- `setState(newState)`: ignored while a `close` is pending; otherwise
record the pending state and abort the current wait (`abort?.abort();
abort = undefined`).  The `runState()` call it makes is the driver
(`runStateLoop`), a no-op when re-entered from inside a state body. -/
def setState (newState : PlayerStateTag) (s : Player) : Player :=
  if s.nextState = some .close then s
  else { s with nextState := some newState, abortSet := false }

/-- `pausePlayback()`. -/
def pausePlayback (s : Player) : Player :=
  if !s.isPlaying then s
  else
    let s1 := { s with isPlaying := false, untilTime := none }
    if s1.state = .play then setState .idle s1 else emitStateImpl s1

/-- `seekPlayback(time)`: throws before initialization; clamps, no-ops when
already at the clamped time, else records the seek target and schedules
`seek-backfill`. -/
def seekPlayback (time : Time) (s : Player) : Except Player Player :=
  match s.startTime, s.endTime with
  | some st, some en =>
    let targetTime := clampTime time st en
    if s.currentTime.isSome ∧ tcompare (s.currentTime.getD targetTime) targetTime = 0 then
      .ok s
    else
      .ok (setState .seekBackfill { s with seekTarget := some targetTime, untilTime := none })
  | _, _ => .error s

/-- `setPlaybackSpeed(speed)`: clamp into `[0.1, 10.0]` and emit. -/
def setPlaybackSpeed (speed : Rat) (s : Player) : Player :=
  emitStateImpl { s with speed := max (1 / 10) (min 10 speed) }

/-- `setSubscriptions(subscriptions)`: replace the subscription set (the
`Map` keeps the first occurrence of each topic key), and in the states
listed, when paused with a current time, re-issue a seek-backfill at the
current time. -/
def setSubscriptions (subs : List String) (s : Player) : Player :=
  let s1 := { s with subscriptions := subs, allTopics := subs.eraseDups }
  if (s1.state = .idle || s1.state = .seekBackfill || s1.state = .play
      || s1.state = .startPlay)
      && !s1.isPlaying && s1.currentTime.isSome then
    setState .seekBackfill { s1 with seekTarget := s1.currentTime, untilTime := none }
  else s1

/-- `startPlayImpl(opt)` (public `startPlayback()` passes no option). -/
def startPlayImpl (untilTimeOpt : Option Time) (s : Player) : Except Player Player :=
  if s.isPlaying || s.startTime.isNone || s.endTime.isNone then .ok s
  else
    match s.startTime, s.endTime with
    | some st, some en =>
      match untilTimeOpt with
      | some ut =>
        if s.currentTime.isSome ∧ tcompare ut (s.currentTime.getD ut) ≤ 0 then .error s
        else
          let s1 := { s with untilTime := some (clampTime ut st en), isPlaying := true }
          if s1.state = .idle && (s1.nextState.isNone || s1.nextState = some .idle) then
            .ok (setState .play s1)
          else .ok (emitStateImpl s1)
      | none =>
        let s1 := { s with isPlaying := true }
        if s1.state = .idle && (s1.nextState.isNone || s1.nextState = some .idle) then
          .ok (setState .play s1)
        else .ok (emitStateImpl s1)
    | _, _ => .ok s

/-- `resetPlaybackIterator()`: new forward iterator from one nanosecond
past the current time (the old one is returned/dropped). -/
def resetPlaybackIterator (s : Player) : Except Player Player :=
  match s.currentTime with
  | none => .error s
  | some ct =>
    .ok { s with playbackIterator := some (srcMessageIterator s.records
            s.allTopics (some (timeAdd ct ⟨0, 1⟩)) none false) }

/-- One `tick()`.  The tick-end time is
`clamp(currentTime, startTime, untilTime ?? endTime)`.  The drain loop
reads the iterator until it is exhausted (or a pending state interrupts
after one consumed item); every message event read is accumulated — the
loop body has no receive-time test.  Iterator errors are caught and
swallowed inside the loop's `try`.  Afterwards `presence = PRESENT`; if no
state is pending, install `currentTime = tickEnd` and the accumulated
messages, emit, and pause when `untilTime` is reached. -/
def tick (s : Player) : Except Player Player :=
  if !s.isPlaying then .ok s
  else if s.startTime.isNone || s.endTime.isNone then .error s
  else
    match s.currentTime, s.startTime, s.endTime with
    | some ct, some st, some en =>
      let tickEnd := clampTime ct st (s.untilTime.getD en)
      let drained : List BagMsg × Option (List BagMsg) :=
        match s.playbackIterator with
        | none => ([], none)
        | some iter =>
          if s.nextState.isSome then ([], some (iter.drop 1))
          else (iter, some [])
      let s1 := { s with playbackIterator := drained.2, presence := .PRESENT }
      if s1.nextState.isSome then .ok s1
      else
        let s2 := emitStateImpl
          { s1 with currentTime := some tickEnd, messages := drained.1 }
        match s2.untilTime with
        | some ut => if tcompare tickEnd ut ≥ 0 then .ok (pausePlayback s2) else .ok s2
        | none => .ok s2
    | _, _, _ => .error s

/-- `stateInitialize()`: emit, run `dataSource.initialize()` (`initOk`
selects the success or the logged-and-swallowed failure branch), emit
again, and when a start time is known schedule `start-play` (after
`START_DELAY_MS`). -/
def stateInitialize (s : Player) : Player :=
  let s1 := emitStateImpl s
  let s2 :=
    if s1.initOk then
      let st := ((s1.records.head?).map BagMsg.ts).getD ⟨0, 0⟩
      let en := ((s1.records.getLast?).map BagMsg.ts).getD ⟨0, 0⟩
      let seekT := s1.seekTarget.map fun t => clampTime t st en
      { s1 with seekTarget := seekT, startTime := some st, endTime := some en,
                currentTime := some (seekT.getD st), topics := s1.sourceTopics,
                presence := .PRESENT }
    else s1
  let s3 := emitStateImpl s2
  if s3.startTime.isSome then setState .startPlay s3 else s3

/-- `stateStartPlay()`: with a pending seek target, defer to
`seek-backfill`.  Otherwise create the forward iterator at `startTime`,
collect messages up to `startTime + 99 ms` (the first later message is
consumed and discarded by the `break`), set `currentTime` to that bound,
emit, and go `idle`. -/
def stateStartPlay (s : Player) : Except Player Player :=
  match s.startTime, s.endTime with
  | some st, some en =>
    if s.seekTarget.isSome then .ok (setState .seekBackfill s)
    else if s.playbackIterator.isSome then .error s
    else
      let stopTime := clampTime (timeAdd st (fromNanoSec 99000000)) st en
      let iter := srcMessageIterator s.records s.allTopics (some st) none false
      let s0 := { s with playbackIterator := some iter, messages := [] }
      if s.nextState.isSome ∧ iter ≠ [] then
        .ok { s0 with playbackIterator := some (iter.drop 1) }
      else
        let taken := iter.takeWhile fun r => timeLe r.ts stopTime
        let rest := (iter.drop taken.length).drop 1
        let s1 := emitStateImpl
          { s0 with playbackIterator := some rest, currentTime := some stopTime,
                    messages := taken, presence := .PRESENT }
        .ok (setState .idle s1)
  | _, _ => .error s

/-- `stateSeekBackfill()`: clamp the seek target, back-fill messages at it
(the 100 ms BUFFERING timer does not fire on the fast path), install them,
emit, reset the forward iterator, continue to `play`/`idle`; the `finally`
clears the seek target unless another seek was queued. -/
def stateSeekBackfill (s : Player) : Except Player Player :=
  match s.startTime, s.endTime with
  | some st, some en =>
    match s.seekTarget with
    | none => .ok s
    | some tgt =>
      let targetTime := clampTime tgt st en
      let msgs := getBackfillMessages s.records s.allTopics targetTime
      let fin := fun (p : Player) =>
        { (if p.nextState ≠ some .seekBackfill then { p with seekTarget := none }
           else p) with abortSet := false }
      if s.nextState.isSome then .ok (fin s)
      else
        let s1 := emitStateImpl
          { s with messages := msgs, currentTime := some targetTime,
                   presence := .PRESENT }
        match resetPlaybackIterator s1 with
        | .error p => .error (fin p)
        | .ok s2 => .ok (fin (setState (if s2.isPlaying then .play else .idle) s2))
  | _, _ => .error s

/-- `stateIdle()`: throws if an abort controller is still around, else
stop playing, emit, and park on the abort signal (the park resumes when a
later `setState` aborts; the driver models this by exiting its loop). -/
def stateIdle (s : Player) : Except Player Player :=
  if s.abortSet then .error s
  else .ok (emitStateImpl { s with isPlaying := false, presence := .PRESENT, abortSet := true })

/-- `stateClose()`: stop playing, `terminate?.()` the source (a no-op for
`BagIterableSource`, which defines none), return and drop the iterator. -/
def stateClose (s : Player) : Player :=
  { s with isPlaying := false, playbackIterator := none }

/-- `stateResetPlaybackIterator()`. -/
def stateResetPlaybackIterator (s : Player) : Except Player Player :=
  match resetPlaybackIterator s with
  | .error p => .error p
  | .ok s1 => .ok (setState (if s1.isPlaying then .play else .idle) s1)

/-- The `while` loop of `statePlay()` (fuel-bounded; the real loop runs
until paused, interrupted, or the end of the recording).  A tick error is
caught by `statePlay`'s `try`, which logs and emits. -/
def statePlayLoop : Nat → Player → Player
  | 0, s => s
  | fuel + 1, s =>
    if s.isPlaying && s.nextState.isNone then
      match s.currentTime, s.endTime with
      | some ct, some en =>
        if tcompare ct en ≥ 0 then setState .idle s
        else
          match tick s with
          | .error p => emitStateImpl p
          | .ok s1 =>
            if s1.nextState.isSome then s1
            else statePlayLoop fuel s1
      | _, _ => s
    else s

/-- `statePlay()`: the invariant checks precede the `try`, so they throw
out of the body; then the tick loop. -/
def statePlay (fuel : Nat) (s : Player) : Except Player Player :=
  if s.currentTime.isNone then .error s
  else if s.startTime.isNone || s.endTime.isNone then .error s
  else .ok (statePlayLoop fuel s)

/-- The driver loop of `runState()`: consume pending states; when leaving
for a state other than `idle`/`play`, return and drop any cached iterator
first; a throwing state body is logged and followed by one emission, and
ends the loop. -/
def runStateLoop (fuel : Nat) (s : Player) : Player :=
  match fuel with
  | 0 => s
  | fuel + 1 =>
    match s.nextState with
    | none => s
    | some st =>
      let s0 := { s with state := st, nextState := none }
      let s1 :=
        if st ≠ .idle ∧ st ≠ .play ∧ s0.playbackIterator.isSome then
          { s0 with playbackIterator := none }
        else s0
      let body : Except Player Player :=
        match st with
        | .preinit => .ok (emitStateImpl s1)
        | .initState => .ok (stateInitialize s1)
        | .startPlay => stateStartPlay s1
        | .idle => stateIdle s1
        | .seekBackfill => stateSeekBackfill s1
        | .play => statePlay fuel s1
        | .close => .ok (stateClose s1)
        | .resetPlaybackIterator => stateResetPlaybackIterator s1
      match body with
      | .ok s2 => runStateLoop fuel s2
      | .error s2 => emitStateImpl s2

/-- Public `close()`. -/
def closePlayer (fuel : Nat) (s : Player) : Player :=
  runStateLoop fuel (setState .close s)

/-! ## Concrete states for the scenario theorems -/

/-- An initialized player parked in `idle`: listener installed, recording
bounds `(0,0) … (100,0)`, current time `(0,0)`, not playing, empty
subscription set, forward iterator in place (drained), no pending state.
`abortSet` is `true` because `stateIdle` parks on its abort signal. -/
def samplePlayer : Player :=
  { state := .idle, nextState := none, listener := true, records := [],
    sourceTopics := [], initOk := true, abortSet := true, isPlaying := false,
    speed := 1, currentTime := some ⟨0, 0⟩, startTime := some ⟨0, 0⟩,
    endTime := some ⟨100, 0⟩, untilTime := none, seekTarget := none,
    topics := [], subscriptions := [], allTopics := [], messages := [],
    presence := .PRESENT, playbackIterator := some [], emitted := [] }

/-- `seekPlayback({sec:150,nsec:0})` on `samplePlayer`, driver run. -/
def seek150 : Player :=
  match seekPlayback ⟨150, 0⟩ samplePlayer with
  | .ok s => runStateLoop 16 s
  | .error p => p

/-- …then `seekPlayback({sec:-10,nsec:0})`, driver run. -/
def seek150thenNeg : Player :=
  match seekPlayback ⟨-10, 0⟩ seek150 with
  | .ok s => runStateLoop 16 s
  | .error p => p

/-- `samplePlayer` after `close()` has been *executed* (the driver consumed
the `close` state). -/
def closedPlayer : Player := closePlayer 16 samplePlayer

/-- A `seekPlayback({sec:50,nsec:0})` issued after the close, driver run. -/
def postCloseSeek : Player :=
  match seekPlayback ⟨50, 0⟩ closedPlayer with
  | .ok s => runStateLoop 16 s
  | .error p => p

/-- An initialized playing player mid-`play`: current time `(5,0)`,
recording bounds `(0,0) … (20,0)`, no `untilTime`, and a forward iterator
holding one message at `(10,0)` — strictly after the tick-end time
`clamp((5,0), (0,0), (20,0)) = (5,0)`. -/
def playingPlayer : Player :=
  { samplePlayer with
      state := .play
      isPlaying := true
      currentTime := some ⟨5, 0⟩
      endTime := some ⟨20, 0⟩
      playbackIterator := some [{ topic := "/t", ts := ⟨10, 0⟩, payload := 0 }] }

/-- The result of one `tick()` on `playingPlayer`. -/
def tickedPlayer : Player :=
  match tick playingPlayer with
  | .ok s => s
  | .error p => p

/-- An opened `CachedFilelike` with no reconnect callback: file size 10,
budget 200 MiB, one pending read `[0,5)` (id 0), a live connection, and a
first stream error recorded at `t = 0` ms. -/
def cacheA : CacheSt :=
  { fileSize := 10, cacheSizeInBytes := 1024 * 1024 * 200,
    virtualBuffer := mkVLB 10 none none, readRequests := [⟨0, 0, 5⟩],
    lastResolvedCallbackEnd := none, keepReconnectingCallback := false,
    lastErrorTime := some 0, closed := false, currentConnection := some ⟨0, 10⟩,
    settled := [] }

/-- `cacheA` after a second stream error (token 7) at `t = 50` ms —
within the 100 ms hard-failure window. -/
def cacheLatched : CacheSt := onStreamError 50 7 cacheA

/-- A subsequently issued valid read `read(6, 2)` (id 1) on the latched
cache. -/
def postLatchRead : CacheSt × ReadDisposition := issueRead 1 6 2 cacheLatched

/-- The pending state recorded by a `seekPlayback` issued after the close
state has been executed (`none` would mean the call was ignored or threw). -/
def postCloseSeekPending : Option PlayerStateTag :=
  match seekPlayback ⟨50, 0⟩ closedPlayer with
  | .ok s => s.nextState
  | .error _ => none

/-- Whether `tick playingPlayer` returned normally. -/
def tickReturnedOk : Bool :=
  match tick playingPlayer with
  | .ok _ => true
  | .error _ => false

/-! # Theorems -/

theorem timeLe_refl (a : Time) : timeLe a a = true := by
  simp [timeLe, tcompare]

theorem timeLe_total (a b : Time) : timeLe a b = true ∨ timeLe b a = true := by
  simp only [timeLe, tcompare, decide_eq_true_eq]
  split_ifs <;> omega

theorem timeLe_trans {a b c : Time} (h1 : timeLe a b = true) (h2 : timeLe b c = true) :
    timeLe a c = true := by
  simp only [timeLe, tcompare, decide_eq_true_eq] at *
  split_ifs at * <;> omega

instance : IsTotal BagMsg fun a b => timeLe a.ts b.ts = true :=
  ⟨fun a b => timeLe_total a.ts b.ts⟩

instance : IsTrans BagMsg fun a b => timeLe a.ts b.ts = true :=
  ⟨fun _ _ _ => timeLe_trans⟩

theorem takeWhile_always_true (l : List BagMsg) (p : BagMsg → Bool)
    (hp : ∀ x, p x = true) : l.takeWhile p = l := by
  induction l with
  | nil => rfl
  | cons a l ih => simp [List.takeWhile, hp, ih]

/-- The reverse iterator for a single topic is the reverse of the
chronological records of that topic up to `time`. -/
theorem srcIterator_reverse_eq (records : List BagMsg) (tp : String) (time : Time) :
    srcMessageIterator records [tp] (some time) none true
      = (records.filter fun r => r.topic == tp && timeLe r.ts time).reverse := by
  unfold srcMessageIterator bagMessageIterator
  rw [takeWhile_always_true _ _ (fun _ => rfl)]
  simp only []
  refine congrArg List.reverse (List.filter_congr fun x _ => ?_)
  simp [List.contains]
  cases h : x.topic == tp
  · simp_all [beq_iff_eq]
  · simp_all [beq_iff_eq]

/-- In a chronologically sorted list, the last element is the latest. -/
theorem getLast_is_max (l : List BagMsg) (m : BagMsg)
    (hs : l.Pairwise fun a b => timeLe a.ts b.ts = true)
    (hm : l.reverse.head? = some m) :
    m ∈ l ∧ ∀ x ∈ l, timeLe x.ts m.ts = true := by
  match hrev : l.reverse with
  | [] => rw [hrev] at hm; cases hm
  | m' :: rest =>
    rw [hrev] at hm
    have hmm : m' = m := by simpa using hm
    rw [hmm] at hrev
    have hl : l = rest.reverse ++ [m] := by
      have := congrArg List.reverse hrev
      simpa using this
    subst hl
    rw [List.pairwise_append] at hs
    constructor
    · simp
    · intro x hx
      rcases List.mem_append.mp hx with h | h
      · exact hs.2.2 x h m (by simp)
      · simp at h; subst h; exact timeLe_refl _

/-- The first item of the single-topic reverse iterator is the latest
record of that topic at or before `time`. -/
theorem backfillPick_spec (records : List BagMsg) (tp : String) (time : Time)
    (hchron : records.Pairwise fun a b => timeLe a.ts b.ts = true) (m : BagMsg)
    (hm : (srcMessageIterator records [tp] (some time) none true).head? = some m) :
    m ∈ records ∧ m.topic = tp ∧ timeLe m.ts time = true ∧
      ∀ r ∈ records, r.topic = tp → timeLe r.ts time = true →
        timeLe r.ts m.ts = true := by
  rw [srcIterator_reverse_eq] at hm
  have hsf : (records.filter fun r => r.topic == tp && timeLe r.ts time).Pairwise
      fun a b => timeLe a.ts b.ts = true := hchron.filter _
  obtain ⟨hmem, hmax⟩ := getLast_is_max _ m hsf hm
  have hmf := List.mem_filter.mp hmem
  have hprop : m.topic = tp ∧ timeLe m.ts time = true := by
    have := hmf.2
    simp only [Bool.and_eq_true, beq_iff_eq] at this
    exact this
  refine ⟨hmf.1, hprop.1, hprop.2, ?_⟩
  intro r hr htp hle
  exact hmax r (List.mem_filter.mpr ⟨hr, by simp [htp, hle]⟩)

/-- When the topic has a record at or before `time`, the reverse iterator
is nonempty. -/
theorem backfillPick_exists (records : List BagMsg) (tp : String) (time : Time)
    (r : BagMsg) (hr : r ∈ records) (htp : r.topic = tp)
    (hle : timeLe r.ts time = true) :
    ∃ m, (srcMessageIterator records [tp] (some time) none true).head? = some m := by
  rw [srcIterator_reverse_eq]
  have : r ∈ records.filter fun q => q.topic == tp && timeLe q.ts time :=
    List.mem_filter.mpr ⟨hr, by simp [htp, hle]⟩
  match hf : (records.filter fun q => q.topic == tp && timeLe q.ts time).reverse with
  | [] =>
    rw [← List.mem_reverse, hf] at this
    cases this
  | m :: rest => exact ⟨m, by rw [hf]; rfl⟩

/-- The messages collected (before sorting) by `getBackfillMessages`. -/
theorem backfillCollected_mem (records : List BagMsg) (topics : List String)
    (time : Time) (m : BagMsg) :
    m ∈ backfillCollect records topics time
      ↔ ∃ tp ∈ topics,
          (srcMessageIterator records [tp] (some time) none true).head? = some m := by
  unfold backfillCollect
  induction topics with
  | nil => simp
  | cons tp rest ih =>
    simp only [List.foldr_cons]
    match h : (srcMessageIterator records [tp] (some time) none true).head? with
    | some x =>
      simp only [List.mem_cons, ih]
      constructor
      · rintro (rfl | ⟨tq, htq, hq⟩)
        · exact ⟨tp, by simp, h⟩
        · exact ⟨tq, by simp [htq], hq⟩
      · rintro ⟨tq, htq, hq⟩
        rcases htq with rfl | htq'
        · rw [h] at hq; cases hq; exact Or.inl rfl
        · exact Or.inr ⟨tq, htq', hq⟩
    | none =>
      rw [ih]
      constructor
      · rintro ⟨tq, htq, hq⟩
        exact ⟨tq, by simp [htq], hq⟩
      · rintro ⟨tq, htq, hq⟩
        rcases List.mem_cons.mp htq with rfl | htq'
        · rw [h] at hq; cases hq
        · exact ⟨tq, htq', hq⟩

/-- Each collected message carries the topic it was picked for, so a
duplicate-free topic selection contributes at most one message per
topic. -/
theorem backfillCollected_filter_le_one (records : List BagMsg) (topics : List String)
    (time : Time) (hchron : records.Pairwise fun a b => timeLe a.ts b.ts = true)
    (hnd : topics.Nodup) (tp : String) :
    ((backfillCollect records topics time).filter fun m => m.topic == tp).length ≤ 1 := by
  unfold backfillCollect
  induction topics with
  | nil => simp
  | cons t rest ih =>
    have hnd' := hnd.of_cons
    have hnotmem : t ∉ rest := (List.nodup_cons.mp hnd).1
    simp only [List.foldr_cons]
    have hrest_topics : ∀ m ∈ rest.foldr
        (fun t acc =>
          match (srcMessageIterator records [t] (some time) none true).head? with
          | some x => x :: acc
          | none => acc) [], m.topic ∈ rest := by
      intro m hm
      obtain ⟨tq, htq, hq⟩ := (backfillCollected_mem records rest time m).mp hm
      obtain ⟨_, hq2, _⟩ := backfillPick_spec records tq time hchron m hq
      rw [hq2]; exact htq
    match h : (srcMessageIterator records [t] (some time) none true).head? with
    | some x =>
      obtain ⟨_, hx2, _⟩ := backfillPick_spec records t time hchron x h
      by_cases htp : t = tp
      · subst htp
        have : (rest.foldr
            (fun t acc =>
              match (srcMessageIterator records [t] (some time) none true).head? with
              | some x => x :: acc
              | none => acc) []).filter (fun m => m.topic == t) = [] := by
          rw [List.filter_eq_nil_iff]
          intro m hm
          intro hc
          rw [beq_iff_eq] at hc
          exact hnotmem (hc ▸ hrest_topics m hm)
        simp [List.filter_cons, hx2, this]
      · have hxne : (x.topic == tp) = false := by
          rw [beq_eq_false_iff_ne, hx2]; exact htp
        simp only [List.filter_cons, hxne]
        exact ih hnd'
    | none => exact ih hnd'

/-! ### Range-set algebra lemmas -/

theorem coversB_cons (q : BRange) (l : List BRange) (x : Nat) :
    coversB (q :: l) x = ((decide (q.start ≤ x) && decide (x < q.stop)) || coversB l x) := by
  simp [coversB]

theorem coversB_nil (x : Nat) : coversB [] x = false := rfl

theorem mem_unifyInsert_start_lb (r : BRange) (rs : List BRange) (b : Nat)
    (hr : b < r.start) (hrs : ∀ z ∈ rs, b < z.start) :
    ∀ y ∈ unifyInsert r rs, b < y.start := by
  induction rs generalizing r with
  | nil =>
    intro y hy
    simp only [unifyInsert, List.mem_singleton] at hy
    subst hy; exact hr
  | cons q rest ih =>
    intro y hy
    unfold unifyInsert at hy
    split_ifs at hy with h1 h2
    · rw [List.mem_cons] at hy
      rcases hy with rfl | hy
      · exact hr
      · exact hrs y hy
    · rw [List.mem_cons] at hy
      rcases hy with rfl | hy
      · exact hrs _ (by simp)
      · exact ih r hr (fun z hz => hrs z (by simp [hz])) y hy
    · refine ih _ ?_ (fun z hz => hrs z (by simp [hz])) y hy
      have := hrs q (by simp)
      show b < min r.start q.start
      omega

theorem mem_unifyInsert_nonempty (r : BRange) (rs : List BRange)
    (hr : r.start < r.stop) (hrs : ∀ q ∈ rs, q.start < q.stop) :
    ∀ y ∈ unifyInsert r rs, y.start < y.stop := by
  induction rs generalizing r with
  | nil =>
    intro y hy
    simp only [unifyInsert, List.mem_singleton] at hy
    subst hy; exact hr
  | cons q rest ih =>
    intro y hy
    unfold unifyInsert at hy
    split_ifs at hy with h1 h2
    · rw [List.mem_cons] at hy
      rcases hy with rfl | hy
      · exact hr
      · exact hrs y hy
    · rw [List.mem_cons] at hy
      rcases hy with rfl | hy
      · exact hrs _ (by simp)
      · exact ih r hr (fun z hz => hrs z (by simp [hz])) y hy
    · refine ih _ ?_ (fun z hz => hrs z (by simp [hz])) y hy
      have := hrs q (by simp)
      show min r.start q.start < max r.stop q.stop
      omega

theorem canon_unifyInsert (r : BRange) (rs : List BRange)
    (hr : r.start < r.stop) (h : Canon rs) : Canon (unifyInsert r rs) := by
  induction rs generalizing r with
  | nil =>
    refine ⟨?_, by simp [unifyInsert]⟩
    intro y hy
    simp only [unifyInsert, List.mem_singleton] at hy
    subst hy; exact hr
  | cons q rest ih =>
    obtain ⟨hne, hpw⟩ := h
    have hq := hne q (by simp)
    have hrest : ∀ z ∈ rest, z.start < z.stop := fun z hz => hne z (by simp [hz])
    have hpw' : rest.Pairwise fun a c => a.stop < c.start := hpw.of_cons
    have hhead : ∀ z ∈ rest, q.stop < z.start := fun z hz => List.rel_of_pairwise_cons hpw hz
    unfold unifyInsert
    split_ifs with h1 h2
    · simp only [isBefore] at h1
      refine ⟨?_, ?_⟩
      · intro y hy
        rw [List.mem_cons] at hy
        rcases hy with rfl | hy
        · exact hr
        · exact hne y hy
      · refine List.pairwise_cons.mpr ⟨?_, hpw⟩
        intro z hz
        rw [List.mem_cons] at hz
        rcases hz with rfl | hz
        · exact h1
        · have := hhead z hz
          omega
    · obtain ⟨ihne, ihpw⟩ := ih r hr ⟨hrest, hpw'⟩
      refine ⟨?_, ?_⟩
      · intro y hy
        rw [List.mem_cons] at hy
        rcases hy with rfl | hy
        · exact hq
        · exact ihne y hy
      · exact List.pairwise_cons.mpr
          ⟨mem_unifyInsert_start_lb r rest q.stop (by omega) hhead, ihpw⟩
    · refine ih ⟨min r.start q.start, max r.stop q.stop⟩ ?_ ⟨hrest, hpw'⟩
      show min r.start q.start < max r.stop q.stop
      omega

theorem covers_unifyInsert (r : BRange) (rs : List BRange)
    (hr : r.start < r.stop) (hrs : ∀ q ∈ rs, q.start < q.stop) (x : Nat) :
    coversB (unifyInsert r rs) x = true ↔
      ((r.start ≤ x ∧ x < r.stop) ∨ coversB rs x = true) := by
  induction rs generalizing r with
  | nil => simp [unifyInsert, coversB]
  | cons q rest ih =>
    have hq := hrs q (by simp)
    have hrest : ∀ z ∈ rest, z.start < z.stop := fun z hz => hrs z (by simp [hz])
    unfold unifyInsert
    split_ifs with h1 h2
    · simp only [coversB_cons, Bool.or_eq_true, Bool.and_eq_true, decide_eq_true_eq]
    · rw [coversB_cons, coversB_cons]
      simp only [Bool.or_eq_true, Bool.and_eq_true, decide_eq_true_eq]
      rw [ih r hr hrest]
      tauto
    · rw [ih ⟨min r.start q.start, max r.stop q.stop⟩ (by simp; omega) hrest]
      rw [coversB_cons]
      simp only [Bool.or_eq_true, Bool.and_eq_true, decide_eq_true_eq]
      constructor
      · rintro (h | h)
        · have h' : min r.start q.start ≤ x ∧ x < max r.stop q.stop := h
          omega
        · tauto
      · rintro (h | h | h)
        · exact Or.inl (show min r.start q.start ≤ x ∧ x < max r.stop q.stop by omega)
        · exact Or.inl (show min r.start q.start ≤ x ∧ x < max r.stop q.stop by omega)
        · tauto

theorem covers_unifySimplify (r : BRange) (rs : List BRange)
    (hrs : ∀ q ∈ rs, q.start < q.stop) (x : Nat) :
    coversB (unifySimplify r rs) x = true ↔
      ((r.start ≤ x ∧ x < r.stop) ∨ coversB rs x = true) := by
  unfold unifySimplify
  split_ifs with h
  · exact covers_unifyInsert r rs h hrs x
  · constructor
    · tauto
    · rintro (hx | hx)
      · omega
      · exact hx

theorem canon_unifySimplify (r : BRange) (rs : List BRange) (h : Canon rs) :
    Canon (unifySimplify r rs) := by
  unfold unifySimplify
  split_ifs with hr
  · exact canon_unifyInsert r rs hr h
  · exact h

theorem rangeSub1_covers (q cut : BRange) (x : Nat) :
    coversB (rangeSub1 q cut) x = true ↔
      (q.start ≤ x ∧ x < q.stop ∧ ¬(cut.start ≤ x ∧ x < cut.stop)) := by
  unfold rangeSub1 coversB
  split_ifs with h1 h2 h2 <;> simp <;> omega

theorem rangeSub1_bounds (q cut : BRange) :
    ∀ y ∈ rangeSub1 q cut, q.start ≤ y.start ∧ y.stop ≤ q.stop ∧ y.start < y.stop := by
  intro y hy
  unfold rangeSub1 at hy
  split_ifs at hy with h1 h2 h2 <;> simp at hy <;>
    first
    | (rcases hy with rfl | rfl <;> simp <;> omega)
    | (subst hy; simp; omega)
    | cases hy

theorem rangeSub1_pairwise (q cut : BRange) (hcut : cut.start < cut.stop) :
    (rangeSub1 q cut).Pairwise fun a c => a.stop < c.start := by
  unfold rangeSub1
  split_ifs with h1 h2 h2 <;> simp <;> omega

theorem covers_subtractRanges (rs : List BRange) (cut : BRange) (x : Nat) :
    coversB (subtractRanges rs cut) x = true ↔
      (coversB rs x = true ∧ ¬(cut.start ≤ x ∧ x < cut.stop)) := by
  induction rs with
  | nil => simp [subtractRanges, coversB]
  | cons q rest ih =>
    unfold subtractRanges at *
    simp only [List.flatMap_cons]
    have happ : ∀ (l1 l2 : List BRange),
        coversB (l1 ++ l2) x = (coversB l1 x || coversB l2 x) := by
      intro l1 l2; simp [coversB, List.any_append]
    rw [happ, coversB_cons]
    simp only [Bool.or_eq_true, Bool.and_eq_true, decide_eq_true_eq]
    rw [rangeSub1_covers, ih]
    tauto

theorem canon_subtractRanges (rs : List BRange) (cut : BRange)
    (h : Canon rs) (hcut : cut.start < cut.stop) : Canon (subtractRanges rs cut) := by
  obtain ⟨hne, hpw⟩ := h
  constructor
  · intro y hy
    unfold subtractRanges at hy
    rw [List.mem_flatMap] at hy
    obtain ⟨q, _, hq⟩ := hy
    exact (rangeSub1_bounds q cut y hq).2.2
  · unfold subtractRanges
    induction rs with
    | nil => simp
    | cons q rest ih =>
      simp only [List.flatMap_cons]
      rw [List.pairwise_append]
      refine ⟨rangeSub1_pairwise q cut hcut,
        ih (fun z hz => hne z (by simp [hz])) hpw.of_cons, ?_⟩
      intro y hy z hz
      rw [List.mem_flatMap] at hz
      obtain ⟨q', hq', hz'⟩ := hz
      have hb1 := rangeSub1_bounds q cut y hy
      have hb2 := rangeSub1_bounds q' cut z hz'
      have := List.rel_of_pairwise_cons hpw hq'
      omega

theorem isCovered_iff_pointwise (rs : List BRange) (a b : Nat)
    (h : Canon rs) (hab : a < b) :
    isRangeCoveredByRanges ⟨a, b⟩ rs = true ↔
      ∀ x, a ≤ x → x < b → coversB rs x = true := by
  obtain ⟨hne, hpw⟩ := h
  induction rs with
  | nil =>
    simp only [isRangeCoveredByRanges]
    constructor
    · intro h; cases h
    · intro h
      have := h a le_rfl hab
      simp [coversB] at this
  | cons r rest ih =>
    have hr := hne r (by simp)
    have hrest : ∀ z ∈ rest, z.start < z.stop := fun z hz => hne z (by simp [hz])
    have hhead : ∀ z ∈ rest, r.stop < z.start := fun z hz => List.rel_of_pairwise_cons hpw hz
    unfold isRangeCoveredByRanges
    split_ifs with h1 h2
    · simp only [isBefore, decide_eq_true_eq] at h1
      constructor
      · intro h; cases h
      · intro hall
        exfalso
        have := hall a le_rfl hab
        rw [coversB_cons] at this
        simp only [Bool.or_eq_true, Bool.and_eq_true, decide_eq_true_eq] at this
        rcases this with ⟨h3, _⟩ | h3
        · omega
        · obtain ⟨z, hz, hz2⟩ := (by simpa [coversB] using h3 :
            ∃ z ∈ rest, z.start ≤ a ∧ a < z.stop)
          have := hhead z hz
          omega
    · simp only [isDuring, Bool.and_eq_true, decide_eq_true_eq] at h2
      constructor
      · intro _ x hx1 hx2
        rw [coversB_cons]
        simp only [Bool.or_eq_true, Bool.and_eq_true, decide_eq_true_eq]
        left; omega
      · intro _; rfl
    · simp only [isBefore, decide_eq_true_eq, not_le] at h1
      simp only [isDuring, Bool.and_eq_true, decide_eq_true_eq, not_and_or, not_le] at h2
      rw [ih hrest hpw.of_cons]
      constructor
      · intro hall x hx1 hx2
        rw [coversB_cons]
        simp only [Bool.or_eq_true, Bool.and_eq_true, decide_eq_true_eq]
        exact Or.inr (hall x hx1 hx2)
      · intro hall x hx1 hx2
        have hx := hall x hx1 hx2
        rw [coversB_cons] at hx
        simp only [Bool.or_eq_true, Bool.and_eq_true, decide_eq_true_eq] at hx
        rcases hx with ⟨hx3, hx4⟩ | hx
        · exfalso
          rcases h2 with h2 | h2
          · -- r starts after a: a must be covered by rest, impossible
            have ha := hall a le_rfl hab
            rw [coversB_cons] at ha
            simp only [Bool.or_eq_true, Bool.and_eq_true, decide_eq_true_eq] at ha
            rcases ha with ⟨ha1, _⟩ | ha
            · omega
            · obtain ⟨z, hz, hz2⟩ := (by simpa [coversB] using ha :
                ∃ z ∈ rest, z.start ≤ a ∧ a < z.stop)
              have := hhead z hz
              omega
          · -- r stops before b: r.stop must be covered by rest, impossible
            have hs := hall r.stop (by omega) (by omega)
            rw [coversB_cons] at hs
            simp only [Bool.or_eq_true, Bool.and_eq_true, decide_eq_true_eq] at hs
            rcases hs with ⟨_, hs2⟩ | hs
            · omega
            · obtain ⟨z, hz, hz2⟩ := (by simpa [coversB] using hs :
                ∃ z ∈ rest, z.start ≤ r.stop ∧ r.stop < z.stop)
              have := hhead z hz
              omega
        · exact hx

/-! ### VirtualLRUBuffer: structural lemmas -/

theorem blookup_cons_self (i : Nat) (b : List Nat) (l : List (Nat × List Nat)) :
    blookup i ((i, b) :: l) = some b := by simp [blookup]

theorem blookup_cons_ne (i j : Nat) (b : List Nat) (l : List (Nat × List Nat))
    (h : i ≠ j) : blookup i ((j, b) :: l) = blookup i l := by simp [blookup, h]

theorem blookup_bremove (i j : Nat) (l : List (Nat × List Nat)) :
    blookup i (bremove j l) = if i = j then none else blookup i l := by
  induction l with
  | nil => simp [blookup, bremove]
  | cons p rest ih =>
    obtain ⟨k, b⟩ := p
    show blookup i (((k, b) :: rest).filter fun p => p.fst != j) = _
    rw [List.filter_cons]
    by_cases hkj : k = j
    · subst hkj
      rw [if_neg (by simp)]
      rw [show blookup i (rest.filter fun p => p.fst != k) = _ from ih]
      by_cases hij : i = k
      · simp [hij]
      · simp [blookup, hij]
    · rw [if_pos (by simpa using hkj)]
      by_cases hik : i = k
      · subst hik
        have hij : i ≠ j := hkj
        simp [blookup, hij]
      · show blookup i ((k, b) :: rest.filter fun p => p.fst != j) = _
        rw [blookup_cons_ne i k b _ hik]
        have hih : blookup i (rest.filter fun p => p.fst != j)
            = if i = j then none else blookup i rest := ih
        rw [hih, blookup_cons_ne i k b rest hik]

theorem filter_ne_of_not_mem (l : List Nat) (i : Nat) (h : i ∉ l) :
    (l.filter fun j => j != i) = l := by
  induction l with
  | nil => rfl
  | cons a rest ih =>
    have ha : a ≠ i := fun hc => h (hc ▸ List.mem_cons_self a rest)
    simp only [List.mem_cons, not_or] at h
    simp [List.filter_cons, bne_iff_ne, ha, ih h.2]

theorem mem_touchLRU (lru : List Nat) (i j : Nat) :
    j ∈ touchLRU lru i ↔ (j ∈ lru ∧ j ≠ i) ∨ j = i := by
  unfold touchLRU
  simp [List.mem_filter, bne_iff_ne]

theorem touchLRU_nodup (lru : List Nat) (i : Nat) (h : lru.Nodup) :
    (touchLRU lru i).Nodup := by
  unfold touchLRU
  rw [List.nodup_append]
  refine ⟨h.filter _, List.nodup_singleton i, ?_⟩
  intro j hj
  rw [List.mem_filter] at hj
  simp only [List.mem_singleton]
  intro hc
  subst hc
  simp [bne_iff_ne] at hj

theorem length_filter_ne_of_mem (l : List Nat) (i : Nat) (h : l.Nodup)
    (hi : i ∈ l) : (l.filter fun j => j != i).length + 1 = l.length := by
  induction l with
  | nil => cases hi
  | cons a rest ih =>
    by_cases hai : a = i
    · subst hai
      have hnm : a ∉ rest := (List.nodup_cons.mp h).1
      rw [List.filter_cons, if_neg (by simp), filter_ne_of_not_mem rest a hnm]
      simp
    · have hi' : i ∈ rest := by
        rcases List.mem_cons.mp hi with h' | h'
        · exact absurd h'.symm hai
        · exact h'
      rw [List.filter_cons, if_pos (by simpa using hai)]
      simp only [List.length_cons]
      rw [← ih (List.nodup_cons.mp h).2 hi']

theorem touchLRU_length_mem (lru : List Nat) (i : Nat) (h : lru.Nodup)
    (hi : i ∈ lru) : (touchLRU lru i).length = lru.length := by
  unfold touchLRU
  rw [List.length_append]
  have := length_filter_ne_of_mem lru i h hi
  simpa using this

theorem touchLRU_length_not_mem (lru : List Nat) (i : Nat) (hi : i ∉ lru) :
    (touchLRU lru i).length = lru.length + 1 := by
  unfold touchLRU
  rw [List.length_append, filter_ne_of_not_mem lru i hi]
  rfl

theorem touchLRU_suffix (lru ps : List Nat) (i : Nat) (hps : ps.IsSuffix lru)
    (hi : i ∉ ps) : (ps ++ [i]).IsSuffix (touchLRU lru i) := by
  obtain ⟨pre, hpre⟩ := hps
  unfold touchLRU
  refine ⟨pre.filter fun j => j != i, ?_⟩
  rw [← hpre]
  rw [List.filter_append, filter_ne_of_not_mem ps i hi, List.append_assoc]

theorem blockSizeAt_bounds (s : VLB) (i : Nat) (hB : 0 < s.blockSize)
    (hi : i * s.blockSize < s.byteLength) :
    0 < blockSizeAt s i ∧ i * s.blockSize + blockSizeAt s i ≤ s.byteLength ∧
    i * s.blockSize + blockSizeAt s i = min ((i + 1) * s.blockSize) s.byteLength := by
  have hsucc : (i + 1) * s.blockSize = i * s.blockSize + s.blockSize := by ring
  unfold blockSizeAt
  split_ifs with h
  · rw [hsucc] at h
    have hdiv : s.byteLength / s.blockSize = i :=
      Nat.div_eq_of_lt_le (by omega) (by rw [hsucc]; omega)
    have h3 := Nat.mod_add_div s.byteLength s.blockSize
    rw [hdiv, Nat.mul_comm] at h3
    rw [hsucc]
    omega
  · rw [hsucc] at h ⊢
    omega

theorem blookup_allocBlocks_ne (s : VLB) (i j : Nat) (h : j ≠ i) :
    blookup j (allocBlocks s i) = blookup j s.blocks := by
  unfold allocBlocks
  split_ifs with h1
  · rfl
  · exact blookup_cons_ne j i _ _ h

theorem blookup_allocBlocks_self (s : VLB) (i : Nat) :
    (∀ b, blookup i s.blocks = some b → blookup i (allocBlocks s i) = some b) ∧
    (blookup i s.blocks = none →
      blookup i (allocBlocks s i) = some (List.replicate (blockSizeAt s i) 0)) := by
  unfold allocBlocks
  constructor
  · intro b hb
    rw [if_pos (by simp [hb])]
    exact hb
  · intro hb
    rw [if_neg (by simp [hb])]
    exact blookup_cons_self i _ _

/-- Case analysis for `#getBlock`: either no eviction happens (the promoted
LRU respects the bound), or the least-recently-used block `d ≠ index` is
evicted. -/
theorem getBlock_cases (s : VLB) (index : Nat) (hWF : WF s) :
    (getBlock s index).2 = (blookup index (getBlock s index).1.blocks).getD [] ∧
    ((getBlock s index).1.byteLength = s.byteLength ∧
     (getBlock s index).1.blockSize = s.blockSize ∧
     (getBlock s index).1.numberOfBlocks = s.numberOfBlocks) ∧
    ((getBlock s index).1.blocks = allocBlocks s index ∧
      (getBlock s index).1.lastAccessedBlockIndices
        = touchLRU s.lastAccessedBlockIndices index ∧
      (getBlock s index).1.rangesWithData = s.rangesWithData ∧
      (∀ m, s.numberOfBlocks = some m →
        (touchLRU s.lastAccessedBlockIndices index).length ≤ m)
     ∨ ∃ d rest,
        touchLRU s.lastAccessedBlockIndices index = d :: rest ∧ d ≠ index ∧
        d ∈ s.lastAccessedBlockIndices ∧
        (getBlock s index).1.blocks = bremove d (allocBlocks s index) ∧
        (getBlock s index).1.lastAccessedBlockIndices = rest ∧
        (getBlock s index).1.rangesWithData
          = subtractRanges s.rangesWithData
              ⟨d * s.blockSize, (d + 1) * s.blockSize⟩ ∧
        ∃ m, s.numberOfBlocks = some m ∧
          m < (touchLRU s.lastAccessedBlockIndices index).length) := by
  have hm1 : ∀ m, s.numberOfBlocks = some m → 1 ≤ m := by
    intro m hm
    have := hWF.maxOK
    rw [hm] at this
    exact this.1
  unfold getBlock evictIfNeeded
  cases hnb : s.numberOfBlocks with
  | none => exact ⟨rfl, ⟨rfl, rfl, rfl⟩, Or.inl ⟨rfl, rfl, rfl, by simp [hnb]⟩⟩
  | some m =>
    dsimp only
    split_ifs with hlen
    · -- eviction branch
      cases htouch : touchLRU s.lastAccessedBlockIndices index with
      | nil =>
        exfalso
        rw [htouch] at hlen
        simp at hlen
      | cons d rest =>
        have hdne : d ≠ index ∧ d ∈ s.lastAccessedBlockIndices := by
          cases hf : s.lastAccessedBlockIndices.filter fun j => j != index with
          | nil =>
            exfalso
            have ht1 : touchLRU s.lastAccessedBlockIndices index = [index] := by
              unfold touchLRU
              rw [hf]
              rfl
            rw [ht1] at hlen
            have := hm1 m hnb
            simp at hlen
            omega
          | cons a t =>
            have ht1 : touchLRU s.lastAccessedBlockIndices index = a :: (t ++ [index]) := by
              unfold touchLRU
              rw [hf]
              rfl
            have hae : a :: (t ++ [index]) = d :: rest := ht1.symm.trans htouch
            have hda : a = d := by injection hae
            have hamem : a ∈ s.lastAccessedBlockIndices.filter fun j => j != index := by
              rw [hf]
              exact List.mem_cons_self a t
            rw [List.mem_filter] at hamem
            rw [hda] at hamem
            exact ⟨by simpa using hamem.2, hamem.1⟩
        refine ⟨rfl, ⟨rfl, rfl, rfl⟩, Or.inr ⟨d, rest, rfl, hdne.1, hdne.2,
          rfl, rfl, rfl, m, rfl, ?_⟩⟩
        rw [htouch] at hlen
        exact hlen
    · exact ⟨rfl, ⟨rfl, rfl, rfl⟩, Or.inl ⟨rfl, rfl, rfl, by
        intro m' hm'
        cases hm'
        omega⟩⟩

theorem blookup_allocBlocks_isSome (s : VLB) (i : Nat) :
    (blookup i (allocBlocks s i)).isSome := by
  cases h : blookup i s.blocks with
  | none => rw [(blookup_allocBlocks_self s i).2 h]; rfl
  | some b => rw [(blookup_allocBlocks_self s i).1 b h]; rfl

theorem allocBlocks_of_isSome (s : VLB) (i : Nat)
    (h : (blookup i s.blocks).isSome) : allocBlocks s i = s.blocks := by
  unfold allocBlocks
  rw [if_pos h]

/-- `#getBlock` preserves well-formedness (for a block index inside the
logical range). -/
theorem getBlock_WF (s : VLB) (index : Nat) (hWF : WF s)
    (hib : index * s.blockSize < s.byteLength) : WF (getBlock s index).1 := by
  obtain ⟨hret, ⟨hbl, hbs, hnb⟩, hcases⟩ := getBlock_cases s index hWF
  have hbsa : ∀ i, blockSizeAt (getBlock s index).1 i = blockSizeAt s i := by
    intro i; unfold blockSizeAt; rw [hbl, hbs]
  rcases hcases with ⟨hblocks, hlru, hranges, hmax⟩ |
    ⟨d, rest, htouch, hdne, hdmem, hblocks, hlru, hranges, m, hm, hlen⟩
  · constructor
    · rw [hbs]; exact hWF.bpos
    · rw [hlru]; exact touchLRU_nodup _ _ hWF.lruNodup
    · intro j
      rw [hblocks, hlru, mem_touchLRU]
      by_cases hji : j = index
      · subst hji
        constructor
        · intro _; exact Or.inr rfl
        · intro _; exact blookup_allocBlocks_isSome s j
      · rw [blookup_allocBlocks_ne s index j hji, hWF.residentIff j]
        constructor
        · intro h; exact Or.inl ⟨h, hji⟩
        · rintro (⟨h, _⟩ | h)
          · exact h
          · exact absurd h hji
    · intro j b hb
      rw [hbsa]
      rw [hblocks] at hb
      by_cases hji : j = index
      · subst hji
        cases h : blookup j s.blocks with
        | none =>
          rw [(blookup_allocBlocks_self s j).2 h] at hb
          cases hb
          exact List.length_replicate _ _
        | some b0 =>
          rw [(blookup_allocBlocks_self s j).1 b0 h] at hb
          cases hb
          exact hWF.lengths j _ h
      · rw [blookup_allocBlocks_ne s index j hji] at hb
        exact hWF.lengths j b hb
    · intro j hj
      rw [hbs, hbl]
      rw [hblocks] at hj
      by_cases hji : j = index
      · subst hji; exact hib
      · rw [blookup_allocBlocks_ne s index j hji] at hj
        exact hWF.bounds j hj
    · rw [hnb, hlru]
      cases hx : s.numberOfBlocks with
      | none => trivial
      | some m =>
        have hold := hWF.maxOK
        rw [hx] at hold
        exact ⟨hold.1, hmax m hx⟩
    · rw [hranges]; exact hWF.canon
    · rw [hranges, hbl]; exact hWF.rangesBounded
  · have hcutne : d * s.blockSize < (d + 1) * s.blockSize := by
      have : (d + 1) * s.blockSize = d * s.blockSize + s.blockSize := by ring
      have := hWF.bpos
      omega
    have htnodup : (d :: rest).Nodup := by
      rw [← htouch]; exact touchLRU_nodup _ _ hWF.lruNodup
    have hdrest : d ∉ rest := (List.nodup_cons.mp htnodup).1
    constructor
    · rw [hbs]; exact hWF.bpos
    · rw [hlru]; exact (List.nodup_cons.mp htnodup).2
    · intro j
      rw [hblocks, hlru, blookup_bremove]
      by_cases hjd : j = d
      · subst hjd
        simp only [if_pos rfl]
        constructor
        · intro h; cases h
        · intro h; exact absurd h hdrest
      · rw [if_neg hjd]
        have hjt : j ∈ rest ↔ j ∈ touchLRU s.lastAccessedBlockIndices index := by
          rw [htouch]
          constructor
          · intro h; exact List.mem_cons_of_mem d h
          · intro h
            rcases List.mem_cons.mp h with h | h
            · exact absurd h hjd
            · exact h
        rw [hjt, mem_touchLRU]
        by_cases hji : j = index
        · subst hji
          constructor
          · intro _; exact Or.inr rfl
          · intro _; exact blookup_allocBlocks_isSome s j
        · rw [blookup_allocBlocks_ne s index j hji, hWF.residentIff j]
          constructor
          · intro h; exact Or.inl ⟨h, hji⟩
          · rintro (⟨h, _⟩ | h)
            · exact h
            · exact absurd h hji
    · intro j b hb
      rw [hbsa]
      rw [hblocks, blookup_bremove] at hb
      by_cases hjd : j = d
      · rw [if_pos hjd] at hb; cases hb
      · rw [if_neg hjd] at hb
        by_cases hji : j = index
        · subst hji
          cases h : blookup j s.blocks with
          | none =>
            rw [(blookup_allocBlocks_self s j).2 h] at hb
            cases hb
            exact List.length_replicate _ _
          | some b0 =>
            rw [(blookup_allocBlocks_self s j).1 b0 h] at hb
            cases hb
            exact hWF.lengths j _ h
        · rw [blookup_allocBlocks_ne s index j hji] at hb
          exact hWF.lengths j b hb
    · intro j hj
      rw [hbs, hbl]
      rw [hblocks, blookup_bremove] at hj
      by_cases hjd : j = d
      · rw [if_pos hjd] at hj; cases hj
      · rw [if_neg hjd] at hj
        by_cases hji : j = index
        · subst hji; exact hib
        · rw [blookup_allocBlocks_ne s index j hji] at hj
          exact hWF.bounds j hj
    · rw [hnb, hlru, hm]
      have hold := hWF.maxOK
      rw [hm] at hold
      refine ⟨hold.1, ?_⟩
      have h1 : (touchLRU s.lastAccessedBlockIndices index).length
          ≤ s.lastAccessedBlockIndices.length + 1 := by
        unfold touchLRU
        rw [List.length_append]
        have := s.lastAccessedBlockIndices.length_filter_le fun j => j != index
        simp
        omega
      rw [htouch] at h1
      simp only [List.length_cons] at h1
      omega
    · rw [hranges]
      exact canon_subtractRanges _ _ hWF.canon hcutne
    · rw [hranges, hbl]
      intro r hr
      unfold subtractRanges at hr
      rw [List.mem_flatMap] at hr
      obtain ⟨q, hq, hrq⟩ := hr
      have h1 := rangeSub1_bounds q _ r hrq
      have h2 := hWF.rangesBounded q hq
      omega

/-- `#getBlock` never enlarges the set of filled bytes. -/
theorem getBlock_covers_mono (s : VLB) (index : Nat) (hWF : WF s) (x : Nat)
    (h : coversB (getBlock s index).1.rangesWithData x = true) :
    coversB s.rangesWithData x = true := by
  obtain ⟨_, _, hcases⟩ := getBlock_cases s index hWF
  rcases hcases with ⟨_, _, hranges, _⟩ | ⟨d, rest, _, _, _, _, _, hranges, _⟩
  · rw [hranges] at h; exact h
  · rw [hranges] at h
    exact ((covers_subtractRanges _ _ x).mp h).1

/-- `#getBlock` preserves the filled ⊆ resident invariant. -/
theorem getBlock_inv (s : VLB) (index : Nat) (hWF : WF s)
    (hInv : FilledSubResident s) : FilledSubResident (getBlock s index).1 := by
  obtain ⟨_, ⟨hbl, hbs, _⟩, hcases⟩ := getBlock_cases s index hWF
  intro x hx
  rw [hbs]
  rcases hcases with ⟨hblocks, _, hranges, _⟩ |
    ⟨d, rest, htouch, hdne, hdmem, hblocks, _, hranges, _⟩
  · rw [hblocks]
    rw [hranges] at hx
    by_cases hji : x / s.blockSize = index
    · rw [hji]; exact blookup_allocBlocks_isSome s index
    · rw [blookup_allocBlocks_ne s index _ hji]
      exact hInv x hx
  · rw [hblocks, blookup_bremove]
    rw [hranges] at hx
    obtain ⟨hcov, hnotcut⟩ := (covers_subtractRanges _ _ x).mp hx
    have hxd : x / s.blockSize ≠ d := by
      intro hc
      apply hnotcut
      have hB := hWF.bpos
      constructor
      · rw [← hc]; exact Nat.div_mul_le_self x s.blockSize
      · rw [← hc]
        exact (Nat.div_lt_iff_lt_mul hB).mp (Nat.lt_succ_self _)
    rw [if_neg hxd]
    by_cases hji : x / s.blockSize = index
    · rw [hji]; exact blookup_allocBlocks_isSome s index
    · rw [blookup_allocBlocks_ne s index _ hji]
      exact hInv x hcov

theorem div_eq_iff_range (x d B : Nat) (hB : 0 < B) :
    x / B = d ↔ (d * B ≤ x ∧ x < (d + 1) * B) := by
  constructor
  · intro hc
    constructor
    · rw [← hc]; exact Nat.div_mul_le_self x B
    · rw [← hc]; exact (Nat.div_lt_iff_lt_mul hB).mp (Nat.lt_succ_self _)
  · intro ⟨h1, h2⟩
    exact Nat.div_eq_of_lt_le h1 h2

/-- The block `#getBlock` returns: stored in the result state at `index`,
of the configured size, equal to the previous content when the block was
resident and zero-filled when it was freshly allocated. -/
theorem getBlock_returned (s : VLB) (index : Nat) (hWF : WF s) :
    blookup index (getBlock s index).1.blocks = some (getBlock s index).2 ∧
    (∀ b, blookup index s.blocks = some b → (getBlock s index).2 = b) ∧
    (blookup index s.blocks = none →
      (getBlock s index).2 = List.replicate (blockSizeAt s index) 0) := by
  obtain ⟨hret, _, hcases⟩ := getBlock_cases s index hWF
  have hself : blookup index (getBlock s index).1.blocks
      = blookup index (allocBlocks s index) := by
    rcases hcases with ⟨hblocks, _, _, _⟩ | ⟨d, rest, _, hdne, _, hblocks, _, _, _⟩
    · rw [hblocks]
    · rw [hblocks, blookup_bremove, if_neg (Ne.symm hdne)]
  have hsome := blookup_allocBlocks_isSome s index
  rw [hself] at hret
  refine ⟨?_, ?_, ?_⟩
  · rw [hself]
    cases h : blookup index (allocBlocks s index) with
    | none => rw [h] at hsome; cases hsome
    | some b => rw [hret, h]; rfl
  · intro b hb
    rw [hret, (blookup_allocBlocks_self s index).1 b hb]
    rfl
  · intro hb
    rw [hret, (blookup_allocBlocks_self s index).2 hb]
    rfl

/-- Touching a resident block neither evicts nor changes any block
content or the filled ranges. -/
theorem getBlock_resident_stable (s : VLB) (index : Nat) (hWF : WF s)
    (hres : (blookup index s.blocks).isSome) :
    (getBlock s index).1.blocks = s.blocks ∧
    (getBlock s index).1.rangesWithData = s.rangesWithData ∧
    (∀ b, blookup index s.blocks = some b → (getBlock s index).2 = b) ∧
    (getBlock s index).1.lastAccessedBlockIndices
      = touchLRU s.lastAccessedBlockIndices index := by
  obtain ⟨hret, _, hcases⟩ := getBlock_cases s index hWF
  have hmem : index ∈ s.lastAccessedBlockIndices := (hWF.residentIff index).mp hres
  have htlen : (touchLRU s.lastAccessedBlockIndices index).length
      = s.lastAccessedBlockIndices.length :=
    touchLRU_length_mem _ _ hWF.lruNodup hmem
  rcases hcases with ⟨hblocks, hlru, hranges, _⟩ |
    ⟨d, rest, htouch, hdne, hdmem, hblocks, hlru, hranges, m, hm, hlen⟩
  · have halloc := allocBlocks_of_isSome s index hres
    refine ⟨by rw [hblocks, halloc], by rw [hranges], ?_, by rw [hlru]⟩
    intro b hb
    rw [hret, hblocks, (blookup_allocBlocks_self s index).1 b hb]
    rfl
  · exfalso
    have hold := hWF.maxOK
    rw [hm] at hold
    rw [htlen] at hlen
    omega

/-- A suffix of the LRU list not containing the touched index survives
`#getBlock` (with the index appended), and the blocks it names keep their
content — provided the suffix is shorter than the resident bound. -/
theorem getBlock_suffix (s : VLB) (index : Nat) (hWF : WF s) (ps : List Nat)
    (hps : ps.IsSuffix s.lastAccessedBlockIndices) (hips : index ∉ ps)
    (hm : ∀ m, s.numberOfBlocks = some m → ps.length + 1 ≤ m) :
    (ps ++ [index]).IsSuffix (getBlock s index).1.lastAccessedBlockIndices ∧
    (∀ j ∈ ps, blookup j (getBlock s index).1.blocks = blookup j s.blocks) := by
  obtain ⟨hret, _, hcases⟩ := getBlock_cases s index hWF
  have hsuf : (ps ++ [index]).IsSuffix (touchLRU s.lastAccessedBlockIndices index) :=
    touchLRU_suffix _ _ _ hps hips
  have hjne : ∀ j ∈ ps, j ≠ index := fun j hj hc => hips (hc ▸ hj)
  rcases hcases with ⟨hblocks, hlru, _, _⟩ |
    ⟨d, rest, htouch, hdne, hdmem, hblocks, hlru, hranges, m, hm', hlen⟩
  · refine ⟨by rw [hlru]; exact hsuf, ?_⟩
    intro j hj
    rw [hblocks, blookup_allocBlocks_ne s index j (hjne j hj)]
  · have hsuf2 : (ps ++ [index]).IsSuffix rest := by
      rw [htouch] at hsuf
      rcases List.suffix_cons_iff.mp hsuf with heq | hsuf'
      · exfalso
        have hlen2 : ps.length + 1 = rest.length + 1 := by
          have := congrArg List.length heq
          simp at this
          omega
        have := hm m hm'
        rw [htouch] at hlen
        simp at hlen
        omega
      · exact hsuf'
    have hdps : d ∉ ps := by
      intro hc
      have htn : (d :: rest).Nodup := by
        rw [← htouch]; exact touchLRU_nodup _ _ hWF.lruNodup
      have : d ∈ rest := hsuf2.sublist.subset (List.mem_append.mpr (Or.inl hc))
      exact (List.nodup_cons.mp htn).1 this
    refine ⟨by rw [hlru]; exact hsuf2, ?_⟩
    intro j hj
    have hjd : j ≠ d := fun hc => hdps (hc ▸ hj)
    rw [hblocks, blookup_bremove, if_neg hjd,
      blookup_allocBlocks_ne s index j (hjne j hj)]

theorem range'_concat_one (b0 k : Nat) :
    List.range' b0 (k + 1) = List.range' b0 k ++ [b0 + k] := by
  have := @List.range'_concat 1 b0 k
  simpa using this

theorem touchLRU_eq_of_last (lru : List Nat) (i : Nat) (h : lru.Nodup)
    (init : List Nat) (heq : lru = init ++ [i]) : touchLRU lru i = lru := by
  subst heq
  have hinit : i ∉ init := by
    rw [List.nodup_append] at h
    intro hc
    exact h.2.2 hc (List.mem_singleton.mpr rfl)
  unfold touchLRU
  rw [List.filter_append, filter_ne_of_not_mem init i hinit]
  simp

theorem jsCopy_length (source target : List Nat) (tS sS : Nat) :
    (jsCopy source target tS sS).length = target.length := by
  simp [jsCopy]

theorem jsCopy_getD (source target : List Nat) (tS sS j : Nat)
    (hj : j < target.length) :
    (jsCopy source target tS sS).getD j 0
      = if tS ≤ j ∧ j < tS + (source.length - sS) then source.getD (sS + (j - tS)) 0
        else target.getD j 0 := by
  have hj2 : j < (jsCopy source target tS sS).length := by
    rw [jsCopy_length]; exact hj
  rw [List.getD_eq_getElem _ _ hj2]
  unfold jsCopy
  simp only []
  rw [List.getElem_mapIdx]
  split_ifs with h
  · rfl
  · exact (List.getD_eq_getElem _ _ hj).symm

/-- Replacing the content of a resident block with same-length bytes
preserves well-formedness and all the bookkeeping. -/
theorem updateBlock_WF (s : VLB) (bi : Nat) (blk2 : List Nat) (hWF : WF s)
    (hres : (blookup bi s.blocks).isSome) (hlen : blk2.length = blockSizeAt s bi) :
    WF { s with blocks := (bi, blk2) :: bremove bi s.blocks } := by
  have hlook : ∀ j, blookup j ((bi, blk2) :: bremove bi s.blocks)
      = if j = bi then some blk2 else blookup j s.blocks := by
    intro j
    by_cases hj : j = bi
    · subst hj; rw [if_pos rfl]; exact blookup_cons_self j _ _
    · rw [if_neg hj, blookup_cons_ne j bi _ _ hj, blookup_bremove, if_neg hj]
  constructor
  · exact hWF.bpos
  · exact hWF.lruNodup
  · intro j
    rw [hlook]
    by_cases hj : j = bi
    · subst hj
      rw [if_pos rfl]
      simpa using (hWF.residentIff j).mp hres
    · rw [if_neg hj]
      exact hWF.residentIff j
  · intro j b hb
    rw [hlook] at hb
    by_cases hj : j = bi
    · subst hj
      rw [if_pos rfl] at hb
      cases hb
      exact hlen
    · rw [if_neg hj] at hb
      exact hWF.lengths j b hb
  · intro j hj
    rw [hlook] at hj
    by_cases hjb : j = bi
    · subst hjb
      exact hWF.bounds j hres
    · rw [if_neg hjb] at hj
      exact hWF.bounds j hj
  · exact hWF.maxOK
  · exact hWF.canon
  · exact hWF.rangesBounded

theorem updateBlock_inv (s : VLB) (bi : Nat) (blk2 : List Nat) (hWF : WF s)
    (hres : (blookup bi s.blocks).isSome) (hInv : FilledSubResident s) :
    FilledSubResident { s with blocks := (bi, blk2) :: bremove bi s.blocks } := by
  intro x hx
  by_cases hj : x / s.blockSize = bi
  · rw [hj]
    rw [blookup_cons_self]
    rfl
  · rw [blookup_cons_ne _ _ _ _ hj, blookup_bremove, if_neg hj]
    exact hInv x hx

theorem getBlock_length (s : VLB) (index : Nat) (hWF : WF s) :
    (getBlock s index).2.length = blockSizeAt s index := by
  obtain ⟨h1, h2, h3⟩ := getBlock_returned s index hWF
  cases h : blookup index s.blocks with
  | none => rw [h3 h]; exact List.length_replicate _ _
  | some b => rw [h2 b h]; exact hWF.lengths index b h

/-- `#calculatePosition` on an in-range position: the block index, the
offset within the block, and a positive `remainingBytesInBlock`
stretching exactly to the end of the block (capped at the logical
size). -/
theorem calculatePosition_spec (s : VLB) (pos : Nat) (hWF : WF s)
    (hpos : pos < s.byteLength) :
    calculatePosition s pos
      = some ((getBlock s (pos / s.blockSize)).1, pos / s.blockSize,
          pos - pos / s.blockSize * s.blockSize,
          (getBlock s (pos / s.blockSize)).2.length
            - (pos - pos / s.blockSize * s.blockSize)) ∧
    0 < (getBlock s (pos / s.blockSize)).2.length
          - (pos - pos / s.blockSize * s.blockSize) ∧
    pos + ((getBlock s (pos / s.blockSize)).2.length
          - (pos - pos / s.blockSize * s.blockSize))
      = min ((pos / s.blockSize + 1) * s.blockSize) s.byteLength := by
  have hB := hWF.bpos
  have hlow : pos / s.blockSize * s.blockSize ≤ pos := Nat.div_mul_le_self pos _
  have hib : pos / s.blockSize * s.blockSize < s.byteLength := by omega
  have hhi : pos < (pos / s.blockSize + 1) * s.blockSize :=
    (Nat.div_lt_iff_lt_mul hB).mp (Nat.lt_succ_self _)
  obtain ⟨hsz1, hsz2, hsz3⟩ := blockSizeAt_bounds s (pos / s.blockSize) hB hib
  have hlen := getBlock_length s (pos / s.blockSize) hWF
  refine ⟨?_, ?_, ?_⟩
  · unfold calculatePosition
    rw [if_neg (by omega)]
  · rw [hlen]
    have hminpos : pos < min ((pos / s.blockSize + 1) * s.blockSize) s.byteLength := by
      omega
    omega
  · rw [hlen]
    omega

theorem blockSizeAt_congr (s s' : VLB) (h1 : s'.byteLength = s.byteLength)
    (h2 : s'.blockSize = s.blockSize) (i : Nat) :
    blockSizeAt s' i = blockSizeAt s i := by
  unfold blockSizeAt
  rw [h1, h2]

/-- The copy loop of `copyFrom`, on a well-formed state with sufficient
fuel: it terminates (no fuel artifact), preserves well-formedness, the
configuration, the filled ⊆ resident invariant, never enlarges the filled
set, and throws exactly when the write range sticks out past the logical
size. -/
theorem copyFromLoop_spec (source : List Nat) (tS : Nat) :
    ∀ (fuel : Nat) (s : VLB) (pos : Nat), WF s →
    pos ≤ s.byteLength →
    tS + source.length - pos ≤ fuel →
    ∃ thrown s',
      copyFromLoop source tS fuel s pos = some (thrown, s') ∧ WF s' ∧
      s'.byteLength = s.byteLength ∧ s'.blockSize = s.blockSize ∧
      s'.numberOfBlocks = s.numberOfBlocks ∧
      (∀ x, coversB s'.rangesWithData x = true → coversB s.rangesWithData x = true) ∧
      (FilledSubResident s → FilledSubResident s') ∧
      (thrown = true ↔ (pos < tS + source.length ∧ s.byteLength < tS + source.length)) := by
  intro fuel
  induction fuel with
  | zero =>
    intro s pos hWF hpb hfuel
    refine ⟨false, s, ?_, hWF, rfl, rfl, rfl, fun x h => h, fun h => h, by simp; omega⟩
    unfold copyFromLoop
    rw [if_neg (by omega)]
  | succ fuel ih =>
    intro s pos hWF hpb hfuel
    by_cases hcont : pos < tS + source.length
    · by_cases hbl : pos < s.byteLength
      · -- one block is processed
        have hB := hWF.bpos
        obtain ⟨hcp, hrem, hremend⟩ := calculatePosition_spec s pos hWF hbl
        set bi := pos / s.blockSize with hbi
        have hib : bi * s.blockSize < s.byteLength := by
          have h9 : bi * s.blockSize ≤ pos := Nat.div_mul_le_self pos s.blockSize
          omega
        have hWF1 : WF (getBlock s bi).1 := getBlock_WF s bi hWF hib
        obtain ⟨_, ⟨hc1, hc2, hc3⟩, _⟩ := getBlock_cases s bi hWF
        have hres1 : (blookup bi (getBlock s bi).1.blocks).isSome := by
          rw [(getBlock_returned s bi hWF).1]; rfl
        obtain ⟨hst1, hst2, hst3, hst4⟩ :=
          getBlock_resident_stable (getBlock s bi).1 bi hWF1 hres1
        have hWF2 : WF (getBlock (getBlock s bi).1 bi).1 := by
          have hib1 : bi * (getBlock s bi).1.blockSize < (getBlock s bi).1.byteLength := by
            rw [hc1, hc2]; exact hib
          exact getBlock_WF (getBlock s bi).1 bi hWF1 hib1
        obtain ⟨_, ⟨hd1, hd2, hd3⟩, _⟩ := getBlock_cases (getBlock s bi).1 bi hWF1
        have hblk2 : (getBlock (getBlock s bi).1 bi).2 = (getBlock s bi).2 :=
          hst3 _ (getBlock_returned s bi hWF).1
        have hres2 : (blookup bi (getBlock (getBlock s bi).1 bi).1.blocks).isSome := by
          rw [(getBlock_returned (getBlock s bi).1 bi hWF1).1]; rfl
        -- the state after the in-place content update
        set s3 := { (getBlock (getBlock s bi).1 bi).1 with
          blocks := (bi, jsCopy source (getBlock (getBlock s bi).1 bi).2
              (pos - bi * s.blockSize) (pos - tS))
            :: bremove bi (getBlock (getBlock s bi).1 bi).1.blocks } with hs3
        have hWF3 : WF s3 := by
          apply updateBlock_WF _ _ _ hWF2 hres2
          rw [jsCopy_length, hblk2, getBlock_length s bi hWF]
          rw [blockSizeAt_congr _ s (by rw [hd1, hc1]) (by rw [hd2, hc2])]
        have hpb3 : pos + ((getBlock s bi).2.length - (pos - bi * s.blockSize))
            ≤ s3.byteLength := by
          have hs3bl : s3.byteLength = s.byteLength := by
            rw [hs3]
            show (getBlock (getBlock s bi).1 bi).1.byteLength = s.byteLength
            rw [hd1, hc1]
          rw [hs3bl]
          omega
        have hjle : bi * s.blockSize ≤ pos := Nat.div_mul_le_self pos s.blockSize
        obtain ⟨thrown, s', heq, hWF', hb1, hb2, hb3, hmono, hinv, hthrown⟩ :=
          ih s3 (pos + ((getBlock s bi).2.length - (pos - bi * s.blockSize)))
            hWF3 hpb3 (by omega)
        refine ⟨thrown, s', ?_, hWF', ?_, ?_, ?_, ?_, ?_, ?_⟩
        · rw [copyFromLoop]
          rw [if_pos hcont, hcp]
          simp only []
          rw [← hs3]
          exact heq
        · rw [hb1, hs3]
          show (getBlock (getBlock s bi).1 bi).1.byteLength = s.byteLength
          rw [hd1, hc1]
        · rw [hb2, hs3]
          show (getBlock (getBlock s bi).1 bi).1.blockSize = s.blockSize
          rw [hd2, hc2]
        · rw [hb3, hs3]
          show (getBlock (getBlock s bi).1 bi).1.numberOfBlocks = s.numberOfBlocks
          rw [hd3, hc3]
        · intro x hx
          have h1 := hmono x hx
          have h2 : coversB s3.rangesWithData x = true →
              coversB s.rangesWithData x = true := by
            intro h
            have h3 : coversB (getBlock (getBlock s bi).1 bi).1.rangesWithData x
                = true := h
            have h4 := getBlock_covers_mono (getBlock s bi).1 bi hWF1 x h3
            exact getBlock_covers_mono s bi hWF x h4
          exact h2 h1
        · intro hInv
          apply hinv
          apply updateBlock_inv _ _ _ hWF2 hres2
          exact getBlock_inv (getBlock s bi).1 bi hWF1 (getBlock_inv s bi hWF hInv)
        · rw [hthrown]
          constructor
          · intro ⟨h1, h2⟩
            have : s3.byteLength = s.byteLength := by
              rw [hs3]
              show (getBlock (getBlock s bi).1 bi).1.byteLength = s.byteLength
              rw [hd1, hc1]
            omega
          · intro ⟨h1, h2⟩
            have h3 : s3.byteLength = s.byteLength := by
              rw [hs3]
              show (getBlock (getBlock s bi).1 bi).1.byteLength = s.byteLength
              rw [hd1, hc1]
            refine ⟨?_, by omega⟩
            omega
      · -- the position reached the logical size: the source throws
        have hpe : pos = s.byteLength := by omega
        refine ⟨true, s, ?_, hWF, rfl, rfl, rfl, fun x h => h, fun h => h, by simp; omega⟩
        rw [copyFromLoop]
        rw [if_pos hcont]
        have : calculatePosition s pos = none := by
          unfold calculatePosition
          rw [if_pos (by omega)]
        rw [this]
    · refine ⟨false, s, ?_, hWF, rfl, rfl, rfl, fun x h => h, fun h => h, by simp; omega⟩
      rw [copyFromLoop]
      rw [if_neg hcont]

theorem mod_of_div_eq (x bi B : Nat) (h : x / B = bi) : x % B = x - bi * B := by
  have h2 := Nat.mod_add_div x B
  have h3 : B * (x / B) = bi * B := by rw [h]; ring
  omega

theorem vread_congr_lookup (s s' : VLB) (x : Nat) (hB : s'.blockSize = s.blockSize)
    (hlk : blookup (x / s.blockSize) s'.blocks = blookup (x / s.blockSize) s.blocks) :
    vread s' x = vread s x := by
  unfold vread
  rw [hB, hlk]

/-- The copy loop of `copyFrom` on an in-bounds write whose block span
fits in the resident bound: it completes without throwing, every written
byte reads back as the corresponding source byte, and every block of the
written range is resident afterwards. -/
theorem copyFromLoop_content (source : List Nat) (tS BL B : Nat) (NB : Option Nat)
    (hlen0 : 0 < source.length) (hinb : tS + source.length ≤ BL)
    (hspan : ∀ m, NB = some m →
      (tS + source.length - 1) / B + 1 - tS / B ≤ m) :
    ∀ (fuel k : Nat) (s : VLB) (pos : Nat), WF s →
    s.byteLength = BL → s.blockSize = B → s.numberOfBlocks = NB →
    tS + source.length - pos ≤ fuel →
    ((k = 0 ∧ pos = tS) ∨
      (0 < k ∧ tS ≤ pos ∧ pos ≤ (tS / B + k) * B ∧
        ((tS / B + k) * B ≤ pos ∨ tS + source.length ≤ pos))) →
    tS / B + k ≤ (tS + source.length - 1) / B + 1 →
    (List.range' (tS / B) k).IsSuffix s.lastAccessedBlockIndices →
    (∀ x, tS ≤ x → x < tS + source.length → x < pos →
      vread s x = source.getD (x - tS) 0) →
    ∃ s', copyFromLoop source tS fuel s pos = some (false, s') ∧ WF s' ∧
      s'.byteLength = BL ∧ s'.blockSize = B ∧ s'.numberOfBlocks = NB ∧
      (∀ x, tS ≤ x → x < tS + source.length →
        vread s' x = source.getD (x - tS) 0 ∧
        (blookup (x / B) s'.blocks).isSome) := by
  intro fuel
  induction fuel with
  | zero =>
    intro k s pos hWF hBL hB hNB hfuel hk hkspan hsuffix hcontent
    have hB0 : 0 < B := hB ▸ hWF.bpos
    have hexit : ¬ pos < tS + source.length := by omega
    refine ⟨s, ?_, hWF, hBL, hB, hNB, ?_⟩
    · unfold copyFromLoop
      rw [if_neg hexit]
    · intro x hx1 hx2
      have hxpos : x < pos := by omega
      refine ⟨hcontent x hx1 hx2 hxpos, ?_⟩
      have hkpos : 0 < k := by
        rcases hk with ⟨hk0, hkp⟩ | ⟨hkp, _⟩
        · omega
        · exact hkp
      rcases hk with ⟨hk0, _⟩ | ⟨_, _, hkle, _⟩
      · omega
      · have hdivlo : tS / B ≤ x / B := Nat.div_le_div_right hx1
        have hdivhi : x / B < tS / B + k :=
          (Nat.div_lt_iff_lt_mul hB0).mpr (by omega)
        have hmem : x / B ∈ List.range' (tS / B) k :=
          List.mem_range'_1.mpr ⟨hdivlo, by omega⟩
        exact (hWF.residentIff (x / B)).mpr (hsuffix.sublist.subset hmem)
  | succ fuel ih =>
    intro k s pos hWF hBL hB hNB hfuel hk hkspan hsuffix hcontent
    have hB0 : 0 < B := hB ▸ hWF.bpos
    by_cases hcont : pos < tS + source.length
    · -- process block tS / B + k
      have hbl : pos < s.byteLength := by omega
      obtain ⟨hcp, hrem, hremend⟩ := calculatePosition_spec s pos hWF hbl
      have hbieq : pos / s.blockSize = tS / B + k := by
        rcases hk with ⟨hk0, hkp⟩ | ⟨hkp, _, hkle, hkor⟩
        · subst hk0; subst hkp; rw [hB]; omega
        · subst hB
          have hpe : pos = (tS / s.blockSize + k) * s.blockSize := by omega
          rw [hpe, Nat.mul_div_cancel _ hB0]
      rw [hbieq] at hrem
      have hbilast : tS / B + k ≤ (tS + source.length - 1) / B := by
        have h1 : pos < tS + source.length := hcont
        rcases hk with ⟨hk0, hkp⟩ | ⟨hkp, _, hkle, hkor⟩
        · subst hk0
          have := Nat.div_le_div_right (c := B) (show tS ≤ tS + source.length - 1 by omega)
          omega
        · have hpe : pos = (tS / B + k) * B := by omega
          rw [Nat.le_div_iff_mul_le hB0]
          omega
      have hjle : (tS / B + k) * s.blockSize ≤ pos := by
        rw [← hbieq]; exact Nat.div_mul_le_self pos s.blockSize
      have hib : (tS / B + k) * s.blockSize < s.byteLength := by omega
      have hWF1 : WF (getBlock s (tS / B + k)).1 := getBlock_WF s _ hWF hib
      obtain ⟨_, ⟨hc1, hc2, hc3⟩, _⟩ := getBlock_cases s (tS / B + k) hWF
      -- the processed suffix survives this getBlock
      have hnotps : tS / B + k ∉ List.range' (tS / B) k := by
        intro hc
        have := List.mem_range'_1.mp hc
        omega
      obtain ⟨hsuf1, hpres1⟩ := getBlock_suffix s (tS / B + k) hWF _ hsuffix hnotps
        (by
          intro m hm
          have := hspan m (hNB ▸ hm)
          have h2 : (List.range' (tS / B) k).length = k := by simp
          rw [h2]
          omega)
      have hres1 : (blookup (tS / B + k) (getBlock s (tS / B + k)).1.blocks).isSome := by
        rw [(getBlock_returned s _ hWF).1]; rfl
      obtain ⟨hst1, hst2, hst3, hst4⟩ :=
        getBlock_resident_stable (getBlock s (tS / B + k)).1 _ hWF1 hres1
      have hWF2 : WF (getBlock (getBlock s (tS / B + k)).1 (tS / B + k)).1 := by
        have : (tS / B + k) * (getBlock s (tS / B + k)).1.blockSize
            < (getBlock s (tS / B + k)).1.byteLength := by
          rw [hc1, hc2]; exact hib
        exact getBlock_WF _ _ hWF1 this
      obtain ⟨_, ⟨hd1, hd2, hd3⟩, _⟩ :=
        getBlock_cases (getBlock s (tS / B + k)).1 (tS / B + k) hWF1
      have hblk2 : (getBlock (getBlock s (tS / B + k)).1 (tS / B + k)).2
          = (getBlock s (tS / B + k)).2 :=
        hst3 _ (getBlock_returned s _ hWF).1
      have hres2 : (blookup (tS / B + k)
          (getBlock (getBlock s (tS / B + k)).1 (tS / B + k)).1.blocks).isSome := by
        rw [(getBlock_returned (getBlock s (tS / B + k)).1 _ hWF1).1]; rfl
      -- the second touch leaves the LRU unchanged
      have hlru2 : (getBlock (getBlock s (tS / B + k)).1 (tS / B + k)).1.lastAccessedBlockIndices
          = (getBlock s (tS / B + k)).1.lastAccessedBlockIndices := by
        rw [hst4]
        obtain ⟨pre, hpre⟩ := hsuf1
        refine touchLRU_eq_of_last _ _ hWF1.lruNodup (pre ++ List.range' (tS / B) k) ?_
        rw [← hpre, List.append_assoc]
      set blk2 := jsCopy source (getBlock (getBlock s (tS / B + k)).1 (tS / B + k)).2
        (pos - (tS / B + k) * s.blockSize) (pos - tS) with hblk2def
      set s3 := { (getBlock (getBlock s (tS / B + k)).1 (tS / B + k)).1 with
        blocks := (tS / B + k, blk2)
          :: bremove (tS / B + k)
              (getBlock (getBlock s (tS / B + k)).1 (tS / B + k)).1.blocks } with hs3
      have hs3bl : s3.byteLength = BL := by
        rw [hs3]
        show (getBlock (getBlock s (tS / B + k)).1 (tS / B + k)).1.byteLength = BL
        rw [hd1, hc1, hBL]
      have hs3B : s3.blockSize = B := by
        rw [hs3]
        show (getBlock (getBlock s (tS / B + k)).1 (tS / B + k)).1.blockSize = B
        rw [hd2, hc2, hB]
      have hs3NB : s3.numberOfBlocks = NB := by
        rw [hs3]
        show (getBlock (getBlock s (tS / B + k)).1 (tS / B + k)).1.numberOfBlocks = NB
        rw [hd3, hc3, hNB]
      have hblk2len : blk2.length = blockSizeAt s (tS / B + k) := by
        rw [hblk2def, jsCopy_length, hblk2, getBlock_length s _ hWF]
      have hWF3 : WF s3 := by
        apply updateBlock_WF _ _ _ hWF2 hres2
        rw [hblk2len]
        rw [blockSizeAt_congr _ s (by rw [hd1, hc1]) (by rw [hd2, hc2])]
      obtain ⟨hbsz1, hbsz2, hbsz3⟩ := blockSizeAt_bounds s (tS / B + k) hWF.bpos hib
      have hgbl := getBlock_length s (tS / B + k) hWF
      -- the new position is the end of this block
      have hposnew : pos + ((getBlock s (tS / B + k)).2.length
          - (pos - (tS / B + k) * s.blockSize))
          = min ((tS / B + k + 1) * s.blockSize) s.byteLength := by
        rw [← hbieq]
        exact hremend
      -- suffix in s3
      have hsuf3 : (List.range' (tS / B) (k + 1)).IsSuffix
          s3.lastAccessedBlockIndices := by
        rw [hs3]
        show (List.range' (tS / B) (k + 1)).IsSuffix
          (getBlock (getBlock s (tS / B + k)).1 (tS / B + k)).1.lastAccessedBlockIndices
        rw [hlru2, range'_concat_one]
        exact hsuf1
      -- lookups in s3
      have hlk3 : ∀ j, blookup j s3.blocks
          = if j = tS / B + k then some blk2
            else blookup j (getBlock (getBlock s (tS / B + k)).1 (tS / B + k)).1.blocks := by
        intro j
        rw [hs3]
        by_cases hj : j = tS / B + k
        · subst hj
          rw [if_pos rfl]
          exact blookup_cons_self _ _ _
        · rw [if_neg hj]
          show blookup j ((tS / B + k, blk2) :: bremove (tS / B + k) _) = _
          rw [blookup_cons_ne _ _ _ _ hj, blookup_bremove, if_neg hj]
      have hcontent3 : ∀ x, tS ≤ x → x < tS + source.length →
          x < pos + ((getBlock s (tS / B + k)).2.length
            - (pos - (tS / B + k) * s.blockSize)) →
          vread s3 x = source.getD (x - tS) 0 := by
        intro x hx1 hx2 hx3
        by_cases hxold : x < pos
        · -- previously written block, untouched in this iteration
          have hxdiv : x / B < tS / B + k := by
            rcases hk with ⟨hk0, hkp⟩ | ⟨hkp, _, hkle, _⟩
            · omega
            · exact (Nat.div_lt_iff_lt_mul hB0).mpr (by omega)
          have hxmem : x / B ∈ List.range' (tS / B) k :=
            List.mem_range'_1.mpr ⟨Nat.div_le_div_right hx1, by omega⟩
          have hxB : x / s.blockSize = x / B := by rw [hB]
          have hlkeq : blookup (x / s.blockSize) s3.blocks
              = blookup (x / s.blockSize) s.blocks := by
            rw [hxB, hlk3, if_neg (by omega), hst1, hpres1 _ hxmem]
          have := vread_congr_lookup s s3 x (by rw [hs3B, hB]) hlkeq
          rw [this]
          exact hcontent x hx1 hx2 hxold
        · -- byte written in this iteration
          have hxge : pos ≤ x := by omega
          have hxlt : x < (tS / B + k + 1) * s.blockSize := by
            rw [hgbl] at hx3
            omega
          have hxdiv : x / s.blockSize = tS / B + k := by
            rw [div_eq_iff_range x (tS / B + k) s.blockSize hWF.bpos]
            omega
          have hxmod : x % s.blockSize = x - (tS / B + k) * s.blockSize :=
            mod_of_div_eq x _ s.blockSize hxdiv
          show (((blookup (x / s3.blockSize) s3.blocks).getD []).getD
            (x % s3.blockSize) 0) = source.getD (x - tS) 0
          have hs3B2 : s3.blockSize = s.blockSize := by rw [hs3B, hB]
          rw [hs3B2, hxdiv, hlk3, if_pos rfl]
          simp only [Option.getD_some]
          rw [hxmod, hblk2def, hblk2]
          have hjlt : x - (tS / B + k) * s.blockSize
              < (getBlock s (tS / B + k)).2.length := by
            rw [hgbl]
            omega
          rw [jsCopy_getD _ _ _ _ _ hjlt]
          rw [if_pos (by omega)]
          congr 1
          omega
      have hmul1 : (tS / B + (k + 1)) * B = (tS / B + k) * B + B := by ring
      have hmul2 : (tS / B + k + 1) * B = (tS / B + k) * B + B := by ring
      obtain ⟨s', heq, hWF', he1, he2, he3, hfinal⟩ :=
        ih (k + 1) s3 (pos + ((getBlock s (tS / B + k)).2.length
            - (pos - (tS / B + k) * s.blockSize)))
          hWF3 hs3bl hs3B hs3NB (by rw [hB]; rw [hB] at hrem; omega)
          (by
            right
            rw [hB] at hposnew hrem ⊢
            refine ⟨by omega, by omega, by omega, by omega⟩)
          (by omega) hsuf3 hcontent3
      refine ⟨s', ?_, hWF', he1, he2, he3, hfinal⟩
      rw [copyFromLoop]
      rw [if_pos hcont]
      rw [hbieq] at hcp
      rw [hcp]
      simp only []
      rw [← hblk2def, ← hs3]
      exact heq
    · -- exit: everything already written
      refine ⟨s, ?_, hWF, hBL, hB, hNB, ?_⟩
      · rw [copyFromLoop]
        rw [if_neg hcont]
      · intro x hx1 hx2
        have hxpos : x < pos := by omega
        refine ⟨hcontent x hx1 hx2 hxpos, ?_⟩
        rcases hk with ⟨hk0, hkp⟩ | ⟨hkp, _, hkle, _⟩
        · omega
        · have hdivlo : tS / B ≤ x / B := Nat.div_le_div_right hx1
          have hdivhi : x / B < tS / B + k :=
            (Nat.div_lt_iff_lt_mul hB0).mpr (by omega)
          have hmem : x / B ∈ List.range' (tS / B) k :=
            List.mem_range'_1.mpr ⟨hdivlo, by omega⟩
          exact (hWF.residentIff (x / B)).mpr (hsuffix.sublist.subset hmem)

theorem mem_unifyInsert_stop_ub (r : BRange) (rs : List BRange) (b : Nat)
    (hr : r.stop ≤ b) (hrs : ∀ z ∈ rs, z.stop ≤ b) :
    ∀ y ∈ unifyInsert r rs, y.stop ≤ b := by
  induction rs generalizing r with
  | nil =>
    intro y hy
    simp only [unifyInsert, List.mem_singleton] at hy
    subst hy
    exact hr
  | cons q rest ih =>
    intro y hy
    have hq : q.stop ≤ b := hrs q (by simp)
    have hrest : ∀ z ∈ rest, z.stop ≤ b := fun z hz => hrs z (by simp [hz])
    unfold unifyInsert at hy
    split_ifs at hy with h1 h2
    · rw [List.mem_cons] at hy
      rcases hy with rfl | hy
      · exact hr
      · rw [List.mem_cons] at hy
        rcases hy with rfl | hy
        · exact hq
        · exact hrs y (by simp [hy])
    · rw [List.mem_cons] at hy
      rcases hy with rfl | hy
      · exact hq
      · exact ih r hr hrest y hy
    · refine ih ⟨min r.start q.start, max r.stop q.stop⟩ ?_ hrest y hy
      show max r.stop q.stop ≤ b
      omega

theorem list_eq_of_getD (as bs : List Nat) (hl : as.length = bs.length)
    (h : ∀ j, j < as.length → as.getD j 0 = bs.getD j 0) : as = bs := by
  apply List.ext_getElem hl
  intro i h1 h2
  have h3 := h i h1
  rwa [List.getD_eq_getElem _ _ h1, List.getD_eq_getElem _ _ h2] at h3

/-- A freshly constructed buffer is well-formed (for a positive block size
and a positive block limit, as the source's defaults guarantee). -/
theorem mkVLB_WF (size : Nat) (bs nb : Option Nat)
    (hbs : 0 < bs.getD (kMaxLength / 2))
    (hnb : ∀ m, nb = some m → 1 ≤ m) :
    WF (mkVLB size bs nb) := by
  refine ⟨hbs, List.nodup_nil, ?_, ?_, ?_, ?_, ⟨?_, List.Pairwise.nil⟩, ?_⟩
  · intro i
    constructor
    · intro h
      simp [mkVLB, blookup] at h
    · intro h
      simp [mkVLB] at h
  · intro i bk h
    simp [mkVLB, blookup] at h
  · intro i h
    simp [mkVLB, blookup] at h
  · cases nb with
    | none => exact trivial
    | some m =>
      show 1 ≤ m ∧ (mkVLB size bs (some m)).lastAccessedBlockIndices.length ≤ m
      exact ⟨hnb m rfl, by simp [mkVLB]⟩
  · intro r hr
    simp [mkVLB] at hr
  · intro r hr
    simp [mkVLB] at hr

/-- A freshly constructed buffer has no filled ranges, so the filled-set
invariant holds vacuously. -/
theorem mkVLB_filledSubResident (size : Nat) (bs nb : Option Nat) :
    FilledSubResident (mkVLB size bs nb) := by
  intro x hx
  simp [mkVLB, coversB] at hx

/-- `copyFrom` on a well-formed buffer, for a nonempty in-bounds write
whose block span fits within the resident bound: it succeeds, every
written byte reads back, every block of the written range is resident,
and `hasData` covers the written range. -/
theorem copyFrom_spec (s : VLB) (source : List Nat) (t : Nat) (hWF : WF s)
    (hlen0 : 0 < source.length) (hinb : t + source.length ≤ s.byteLength)
    (hspan : ∀ m, s.numberOfBlocks = some m → spanBlocks s t source.length ≤ m) :
    ∃ s', copyFrom s source (t : Int) = some (false, s') ∧ WF s' ∧
      s'.byteLength = s.byteLength ∧ s'.blockSize = s.blockSize ∧
      s'.numberOfBlocks = s.numberOfBlocks ∧
      (∀ x, t ≤ x → x < t + source.length →
        vread s' x = source.getD (x - t) 0 ∧
        (blookup (x / s.blockSize) s'.blocks).isSome) ∧
      hasData s' t (t + source.length) = true := by
  have hB0 : 0 < s.blockSize := hWF.bpos
  have htlt : t < s.byteLength := by omega
  obtain ⟨s', hloop, hWF', hb1, hb2, hb3, hcontent⟩ :=
    copyFromLoop_content source t s.byteLength s.blockSize s.numberOfBlocks
      hlen0 hinb
      (by
        intro m hm
        have := hspan m hm
        unfold spanBlocks firstBlockIndex lastBlockIndex at this
        omega)
      (source.length + 1) 0 s t hWF rfl rfl rfl (by omega)
      (Or.inl ⟨rfl, rfl⟩)
      (by
        have : t / s.blockSize
            ≤ (t + source.length - 1) / s.blockSize :=
          Nat.div_le_div_right (by omega)
        omega)
      (by simp)
      (fun x hx1 _ hx3 => absurd hx3 (by omega))
  set s2 := { s' with
    rangesWithData :=
      unifySimplify ⟨t, t + source.length⟩ s'.rangesWithData } with hs2
  have hcov : ∀ x, coversB s2.rangesWithData x = true ↔
      ((t ≤ x ∧ x < t + source.length) ∨ coversB s'.rangesWithData x = true) := by
    intro x
    exact covers_unifySimplify _ _ hWF'.canon.1 x
  have hWF2 : WF s2 := by
    refine ⟨hWF'.bpos, hWF'.lruNodup, hWF'.residentIff, hWF'.lengths,
      hWF'.bounds, hWF'.maxOK, canon_unifySimplify _ _ hWF'.canon, ?_⟩
    intro r hr
    show r.stop ≤ s'.byteLength
    by_cases hne : t < t + source.length
    · refine mem_unifyInsert_stop_ub ⟨t, t + source.length⟩ s'.rangesWithData
        s'.byteLength (by show t + source.length ≤ s'.byteLength; omega)
        (fun z hz => hWF'.rangesBounded z hz) r ?_
      have h2 : unifySimplify ⟨t, t + source.length⟩ s'.rangesWithData
          = unifyInsert ⟨t, t + source.length⟩ s'.rangesWithData := by
        unfold unifySimplify
        rw [if_pos hne]
      rw [hs2] at hr
      rw [← h2]
      exact hr
    · omega
  refine ⟨s2, ?_, hWF2, by rw [hs2]; exact hb1, by rw [hs2]; exact hb2,
    by rw [hs2]; exact hb3, ?_, ?_⟩
  · unfold copyFrom
    rw [if_neg (by push_cast; omega)]
    have ht : (t : Int).toNat = t := Int.toNat_ofNat t
    rw [ht, hloop]
  · intro x hx1 hx2
    obtain ⟨hv, hr⟩ := hcontent x hx1 hx2
    have hvx : vread s2 x = vread s' x := by
      unfold vread
      rfl
    rw [hvx]
    exact ⟨hv, hr⟩
  · unfold hasData
    rw [isCovered_iff_pointwise _ _ _ hWF2.canon (by omega)]
    intro x hx1 hx2
    rw [hcov x]
    exact Or.inl ⟨hx1, hx2⟩

theorem drop_take_getD (l : List Nat) (a n j : Nat) (hj : j < n)
    (hlen : a + n ≤ l.length) :
    ((l.drop a).take n).getD j 0 = l.getD (a + j) 0 := by
  have h1 : j < ((l.drop a).take n).length := by
    rw [List.length_take, List.length_drop]
    omega
  have h2 : a + j < l.length := by omega
  rw [List.getD_eq_getElem _ _ h1, List.getD_eq_getElem _ _ h2]
  rw [List.getElem_take, List.getElem_drop]

theorem vread_eq_of (s s' : VLB) (h1 : s'.blocks = s.blocks)
    (h2 : s'.blockSize = s.blockSize) (x : Nat) : vread s' x = vread s x := by
  unfold vread
  rw [h1, h2]

/-- The assembly loop of `slice`, on a well-formed state whose blocks over
the queried range are all resident: it completes, leaves the blocks
untouched, and fills the accumulator with the bytes the buffer holds. -/
theorem sliceLoop_spec (stop startPos BL B : Nat) (NB : Option Nat)
    (hstopBL : stop ≤ BL) (hsp : startPos < stop) :
    ∀ (fuel : Nat) (s : VLB) (pos : Nat) (acc : List Nat), WF s →
    s.byteLength = BL → s.blockSize = B → s.numberOfBlocks = NB →
    stop - pos ≤ fuel → startPos ≤ pos →
    (∀ i, startPos / B ≤ i → i ≤ (stop - 1) / B → (blookup i s.blocks).isSome) →
    acc.length = stop - startPos →
    (∀ j, j < pos - startPos → j < stop - startPos →
      acc.getD j 0 = vread s (startPos + j)) →
    ∃ s' acc', sliceLoop stop startPos fuel s pos acc = some (s', acc') ∧
      acc'.length = stop - startPos ∧
      (∀ j, j < stop - startPos → acc'.getD j 0 = vread s (startPos + j)) := by
  intro fuel
  induction fuel with
  | zero =>
    intro s pos acc hWF hBL hB hNB hfuel hsppos hres hacclen hinv
    have hexit : ¬ pos < stop := by omega
    refine ⟨s, acc, ?_, hacclen, ?_⟩
    · unfold sliceLoop
      rw [if_neg hexit]
    · intro j hj
      exact hinv j (by omega) hj
  | succ fuel ih =>
    intro s pos acc hWF hBL hB hNB hfuel hsppos hres hacclen hinv
    by_cases hpos : pos < stop
    · have hB0 : 0 < B := hB ▸ hWF.bpos
      have hbl : pos < s.byteLength := by omega
      obtain ⟨hcp, hrem, hremend⟩ := calculatePosition_spec s pos hWF hbl
      rw [hB] at hcp hrem hremend
      have hlo : startPos / B ≤ pos / B := Nat.div_le_div_right hsppos
      have hhi : pos / B ≤ (stop - 1) / B := Nat.div_le_div_right (by omega)
      have hresbi := hres (pos / B) hlo hhi
      obtain ⟨b, hb⟩ := Option.isSome_iff_exists.mp hresbi
      have hib : (pos / B) * s.blockSize < s.byteLength := by
        rw [hB, hBL]
        have h9 := Nat.div_mul_le_self pos B
        omega
      have hWF1 : WF (getBlock s (pos / B)).1 := getBlock_WF s _ hWF hib
      obtain ⟨_, ⟨hc1, hc2, hc3⟩, _⟩ := getBlock_cases s (pos / B) hWF
      obtain ⟨hA1, hA2, hA3, hA4⟩ := getBlock_resident_stable s (pos / B) hWF hresbi
      have hgsb : (getBlock s (pos / B)).2 = b := hA3 b hb
      have hres1 : (blookup (pos / B) (getBlock s (pos / B)).1.blocks).isSome := by
        rw [hA1]
        exact hresbi
      have hWF2 : WF (getBlock (getBlock s (pos / B)).1 (pos / B)).1 :=
        getBlock_WF _ _ hWF1 (by rw [hc2, hc1]; exact hib)
      obtain ⟨_, ⟨hd1, hd2, hd3⟩, _⟩ :=
        getBlock_cases (getBlock s (pos / B)).1 (pos / B) hWF1
      obtain ⟨hE1, hE2, hE3, hE4⟩ :=
        getBlock_resident_stable (getBlock s (pos / B)).1 (pos / B) hWF1 hres1
      have hr2b : (getBlock (getBlock s (pos / B)).1 (pos / B)).2 = b := by
        refine hE3 b ?_
        rw [hA1]
        exact hb
      have hrlen : (getBlock s (pos / B)).2.length = b.length := by rw [hgsb]
      set pib := pos - pos / B * B with hpib
      set acc2 := jsCopy (getBlock (getBlock s (pos / B)).1 (pos / B)).2 acc
        (pos - startPos) pib with hacc2
      have hacc2len : acc2.length = stop - startPos := by
        rw [hacc2, jsCopy_length]
        exact hacclen
      have hvr : ∀ x, vread (getBlock (getBlock s (pos / B)).1 (pos / B)).1 x
          = vread s x := by
        intro x
        refine vread_eq_of s _ ?_ ?_ x
        · rw [hE1, hA1]
        · rw [hd2, hc2]
      have hinv2 : ∀ j, j < (pos + ((getBlock s (pos / B)).2.length - pib)) - startPos →
          j < stop - startPos →
          acc2.getD j 0
            = vread (getBlock (getBlock s (pos / B)).1 (pos / B)).1 (startPos + j) := by
        intro j hj1 hj2
        rw [hvr]
        have hjacc : j < acc.length := by omega
        rw [hacc2, jsCopy_getD _ _ _ _ _ hjacc, hr2b]
        by_cases hjold : j < pos - startPos
        · rw [if_neg (by omega)]
          exact hinv j hjold hj2
        · rw [hrlen] at hj1
          rw [if_pos ⟨by omega, by omega⟩]
          have h9 := Nat.div_mul_le_self pos B
          have hxdiv : (startPos + j) / B = pos / B := by
            rw [div_eq_iff_range _ _ _ hB0]
            have h8 : (pos / B + 1) * B = pos / B * B + B := by ring
            constructor
            · omega
            · rw [hrlen] at hremend
              omega
          have hxmod : (startPos + j) % B = (startPos + j) - pos / B * B :=
            mod_of_div_eq _ _ _ hxdiv
          show b.getD (pib + (j - (pos - startPos))) 0 = vread s (startPos + j)
          unfold vread
          rw [hB, hxdiv, hb]
          simp only [Option.getD_some]
          rw [hxmod]
          congr 1
          omega
      obtain ⟨s', acc', heq, hlen', hcont'⟩ :=
        ih (getBlock (getBlock s (pos / B)).1 (pos / B)).1
          (pos + ((getBlock s (pos / B)).2.length - pib)) acc2
          hWF2 (by rw [hd1, hc1, hBL]) (by rw [hd2, hc2, hB]) (by rw [hd3, hc3, hNB])
          (by omega) (by omega)
          (by
            intro i h1 h2
            rw [hE1, hA1]
            exact hres i h1 h2)
          hacc2len hinv2
      refine ⟨s', acc', ?_, hlen', ?_⟩
      · rw [sliceLoop]
        rw [if_pos hpos, hcp]
        simp only []
        rw [← hacc2]
        exact heq
      · intro j hj
        rw [← hvr (startPos + j)]
        exact hcont' j hj
    · refine ⟨s, acc, ?_, hacclen, ?_⟩
      · rw [sliceLoop]
        rw [if_neg hpos]
      · intro j hj
        exact hinv j (by omega) hj

/-- `slice` on a well-formed buffer whose blocks over an in-bounds,
nonempty, `hasData`-covered range are all resident: it succeeds and
returns exactly the bytes the buffer holds over the range. -/
theorem sliceVLB_reads (s : VLB) (start stop : Nat) (hWF : WF s)
    (hstop : stop ≤ s.byteLength) (hlt : start < stop)
    (hmax : stop - start ≤ kMaxLength)
    (hdata : hasData s start stop = true)
    (hres : ∀ i, start / s.blockSize ≤ i → i ≤ (stop - 1) / s.blockSize →
      (blookup i s.blocks).isSome) :
    ∃ s' data, sliceVLB s start stop = some (false, s', data) ∧
      data.length = stop - start ∧
      (∀ j, j < stop - start → data.getD j 0 = vread s (start + j)) := by
  have hB0 : 0 < s.blockSize := hWF.bpos
  have hbl : start < s.byteLength := by omega
  obtain ⟨hcp, hrem, hremend⟩ := calculatePosition_spec s start hWF hbl
  have hlo : start / s.blockSize ≤ start / s.blockSize := le_refl _
  have hhi : start / s.blockSize ≤ (stop - 1) / s.blockSize :=
    Nat.div_le_div_right (by omega)
  have hresbi := hres (start / s.blockSize) hlo hhi
  obtain ⟨b, hb⟩ := Option.isSome_iff_exists.mp hresbi
  have h9 := Nat.div_mul_le_self start s.blockSize
  have hib : (start / s.blockSize) * s.blockSize < s.byteLength := by omega
  have hWF1 : WF (getBlock s (start / s.blockSize)).1 := getBlock_WF s _ hWF hib
  obtain ⟨_, ⟨hc1, hc2, hc3⟩, _⟩ := getBlock_cases s (start / s.blockSize) hWF
  obtain ⟨hA1, hA2, hA3, hA4⟩ := getBlock_resident_stable s (start / s.blockSize) hWF hresbi
  have hgsb : (getBlock s (start / s.blockSize)).2 = b := hA3 b hb
  have hrlen : (getBlock s (start / s.blockSize)).2.length = b.length := by rw [hgsb]
  have hblen : b.length = blockSizeAt s (start / s.blockSize) := hWF.lengths _ b hb
  unfold sliceVLB
  simp only []
  rw [if_neg (by
    push_neg
    have hk : kMaxLength = 4294967296 := rfl
    refine ⟨by omega, by omega, by omega⟩)]
  rw [if_neg (by
    intro hc
    exact hc hdata)]
  rw [hcp]
  simp only []
  by_cases hfast : stop - start ≤ (getBlock s (start / s.blockSize)).2.length
      - (start - start / s.blockSize * s.blockSize)
  · rw [if_pos hfast]
    have hres1 : (blookup (start / s.blockSize)
        (getBlock s (start / s.blockSize)).1.blocks).isSome := by
      rw [hA1]
      exact hresbi
    obtain ⟨hE1, hE2, hE3, hE4⟩ :=
      getBlock_resident_stable (getBlock s (start / s.blockSize)).1
        (start / s.blockSize) hWF1 hres1
    have hr2b : (getBlock (getBlock s (start / s.blockSize)).1
        (start / s.blockSize)).2 = b := by
      refine hE3 b ?_
      rw [hA1]
      exact hb
    rw [hrlen] at hfast
    refine ⟨_, _, rfl, ?_, ?_⟩
    · rw [hr2b]
      rw [List.length_take, List.length_drop]
      omega
    · intro j hj
      rw [hr2b]
      rw [drop_take_getD b _ _ j hj (by omega)]
      have hxdiv : (start + j) / s.blockSize = start / s.blockSize := by
        rw [div_eq_iff_range _ _ _ hB0]
        have h8 : (start / s.blockSize + 1) * s.blockSize
            = start / s.blockSize * s.blockSize + s.blockSize := by ring
        obtain ⟨hz1, hz2, hz3⟩ := blockSizeAt_bounds s (start / s.blockSize) hB0 hib
        rw [← hblen] at hz1 hz2 hz3
        constructor
        · omega
        · omega
      have hxmod : (start + j) % s.blockSize
          = (start + j) - start / s.blockSize * s.blockSize :=
        mod_of_div_eq _ _ _ hxdiv
      unfold vread
      rw [hxdiv, hb]
      simp only [Option.getD_some]
      rw [hxmod]
      congr 1
      omega
  · rw [if_neg hfast]
    obtain ⟨s', data, heq, hlen, hcont⟩ :=
      sliceLoop_spec stop start s.byteLength s.blockSize s.numberOfBlocks
        hstop hlt (stop - start + 1) (getBlock s (start / s.blockSize)).1 start
        (List.replicate (stop - start) 0)
        hWF1 hc1 hc2 hc3 (by omega) (le_refl start)
        (by
          intro i h1 h2
          rw [hA1]
          exact hres i h1 h2)
        (by rw [List.length_replicate])
        (fun j hj1 _ => absurd hj1 (by omega))
    rw [heq]
    refine ⟨s', data, rfl, hlen, ?_⟩
    intro j hj
    rw [hcont j hj]
    refine vread_eq_of s _ hA1 hc2 (start + j)

/-- The assembly loop of `slice` preserves well-formedness, the buffer
configuration, and the filled-set invariant on any input it completes
on. -/
theorem sliceLoop_pres (stop startPos : Nat) :
    ∀ (fuel : Nat) (s : VLB) (pos : Nat) (acc : List Nat), WF s →
    ∀ r, sliceLoop stop startPos fuel s pos acc = some r →
      WF r.1 ∧ r.1.byteLength = s.byteLength ∧ r.1.blockSize = s.blockSize ∧
      r.1.numberOfBlocks = s.numberOfBlocks ∧
      (FilledSubResident s → FilledSubResident r.1) := by
  intro fuel
  induction fuel with
  | zero =>
    intro s pos acc hWF r hr
    unfold sliceLoop at hr
    by_cases h1 : pos < stop
    · rw [if_pos h1] at hr
      cases hr
    · rw [if_neg h1] at hr
      injection hr with h2
      subst h2
      exact ⟨hWF, rfl, rfl, rfl, fun h => h⟩
  | succ fuel ih =>
    intro s pos acc hWF r hr
    rw [sliceLoop] at hr
    by_cases h1 : pos < stop
    · rw [if_pos h1] at hr
      by_cases hbl : pos < s.byteLength
      · obtain ⟨hcp, hrem, hremend⟩ := calculatePosition_spec s pos hWF hbl
        rw [hcp] at hr
        simp only [] at hr
        have h9 := Nat.div_mul_le_self pos s.blockSize
        have hib : (pos / s.blockSize) * s.blockSize < s.byteLength := by omega
        have hWF1 : WF (getBlock s (pos / s.blockSize)).1 := getBlock_WF s _ hWF hib
        obtain ⟨_, ⟨hc1, hc2, hc3⟩, _⟩ := getBlock_cases s (pos / s.blockSize) hWF
        have hWF2 : WF (getBlock (getBlock s (pos / s.blockSize)).1
            (pos / s.blockSize)).1 :=
          getBlock_WF _ _ hWF1 (by rw [hc2, hc1]; exact hib)
        obtain ⟨_, ⟨hd1, hd2, hd3⟩, _⟩ :=
          getBlock_cases (getBlock s (pos / s.blockSize)).1 (pos / s.blockSize) hWF1
        obtain ⟨hW, hb1, hb2, hb3, hI⟩ := ih _ _ _ hWF2 r hr
        refine ⟨hW, by rw [hb1, hd1, hc1], by rw [hb2, hd2, hc2],
          by rw [hb3, hd3, hc3], ?_⟩
        intro hInv
        exact hI (getBlock_inv _ _ hWF1 (getBlock_inv _ _ hWF hInv))
      · have hnone : calculatePosition s pos = none := by
          unfold calculatePosition
          rw [if_pos (by omega)]
        rw [hnone] at hr
        simp only [] at hr
        cases hr
    · rw [if_neg h1] at hr
      injection hr with h2
      subst h2
      exact ⟨hWF, rfl, rfl, rfl, fun h => h⟩

/-- `slice` preserves well-formedness, the buffer configuration, and the
filled-set invariant on any input it completes on. -/
theorem sliceVLB_pres (s : VLB) (start stop : Nat) (hWF : WF s) :
    ∀ r, sliceVLB s start stop = some r →
      WF r.2.1 ∧ r.2.1.byteLength = s.byteLength ∧ r.2.1.blockSize = s.blockSize ∧
      r.2.1.numberOfBlocks = s.numberOfBlocks ∧
      (FilledSubResident s → FilledSubResident r.2.1) := by
  intro r hr
  unfold sliceVLB at hr
  simp only [] at hr
  by_cases h1 : stop > s.byteLength ∨ stop ≤ start ∨ stop - start > kMaxLength
  · rw [if_pos h1] at hr
    injection hr with h3
    subst h3
    exact ⟨hWF, rfl, rfl, rfl, fun h => h⟩
  · rw [if_neg h1] at hr
    by_cases h2 : hasData s start stop
    · rw [if_neg (by
        intro hc
        exact hc h2)] at hr
      push_neg at h1
      obtain ⟨hg1, hg2, hg3⟩ := h1
      have hbl : start < s.byteLength := by omega
      obtain ⟨hcp, hrem, hremend⟩ := calculatePosition_spec s start hWF hbl
      rw [hcp] at hr
      simp only [] at hr
      have h9 := Nat.div_mul_le_self start s.blockSize
      have hib : (start / s.blockSize) * s.blockSize < s.byteLength := by omega
      have hWF1 : WF (getBlock s (start / s.blockSize)).1 := getBlock_WF s _ hWF hib
      obtain ⟨_, ⟨hc1, hc2, hc3⟩, _⟩ := getBlock_cases s (start / s.blockSize) hWF
      by_cases h4 : stop - start ≤ (getBlock s (start / s.blockSize)).2.length
          - (start - start / s.blockSize * s.blockSize)
      · rw [if_pos h4] at hr
        injection hr with h3
        subst h3
        have hWF2 : WF (getBlock (getBlock s (start / s.blockSize)).1
            (start / s.blockSize)).1 :=
          getBlock_WF _ _ hWF1 (by rw [hc2, hc1]; exact hib)
        obtain ⟨_, ⟨hd1, hd2, hd3⟩, _⟩ :=
          getBlock_cases (getBlock s (start / s.blockSize)).1 (start / s.blockSize) hWF1
        refine ⟨hWF2, by rw [hd1, hc1], by rw [hd2, hc2], by rw [hd3, hc3], ?_⟩
        intro hInv
        exact getBlock_inv _ _ hWF1 (getBlock_inv _ _ hWF hInv)
      · rw [if_neg h4] at hr
        cases hsl : sliceLoop stop start (stop - start + 1)
            (getBlock s (start / s.blockSize)).1 start
            (List.replicate (stop - start) 0) with
        | none =>
          rw [hsl] at hr
          cases hr
        | some q =>
          obtain ⟨q1, q2⟩ := q
          rw [hsl] at hr
          simp only [] at hr
          injection hr with h3
          subst h3
          obtain ⟨hW, hb1, hb2, hb3, hI⟩ :=
            sliceLoop_pres stop start _ _ _ _ hWF1 (q1, q2) hsl
          exact ⟨hW, hb1.trans hc1, hb2.trans hc2, hb3.trans hc3,
            fun hInv => hI (getBlock_inv _ _ hWF hInv)⟩
    · rw [if_pos (by
        intro hc
        exact h2 hc)] at hr
      injection hr with h3
      subst h3
      exact ⟨hWF, rfl, rfl, rfl, fun h => h⟩

/-- Full case analysis of `copyFrom` on a well-formed buffer: it always
completes; it throws exactly for a negative or out-of-range `targetStart`
or a write running past the end; a pre-validation throw leaves the state
untouched; any throw can only shrink the filled set; and with the span
bound the filled-set invariant is preserved. -/
theorem copyFrom_cases (s : VLB) (source : List Nat) (t : Int) (hWF : WF s) :
    ∃ thrown s', copyFrom s source t = some (thrown, s') ∧ WF s' ∧
      s'.byteLength = s.byteLength ∧ s'.blockSize = s.blockSize ∧
      s'.numberOfBlocks = s.numberOfBlocks ∧
      (thrown = true ↔ (t < 0 ∨ (s.byteLength : Int) ≤ t ∨
        (0 < source.length ∧ (s.byteLength : Int) < t + source.length))) ∧
      ((t < 0 ∨ (s.byteLength : Int) ≤ t) → s' = s) ∧
      (thrown = true → ∀ x, coversB s'.rangesWithData x = true →
        coversB s.rangesWithData x = true) ∧
      (FilledSubResident s →
        (∀ m, s.numberOfBlocks = some m →
          spanBlocks s t.toNat source.length ≤ m) →
        FilledSubResident s') := by
  unfold copyFrom
  by_cases hval : t < 0 ∨ t ≥ (s.byteLength : Int)
  · rw [if_pos hval]
    refine ⟨true, s, rfl, hWF, rfl, rfl, rfl, ?_, fun _ => rfl,
      fun _ x h => h, fun h _ => h⟩
    constructor
    · intro _
      rcases hval with h | h
      · exact Or.inl h
      · exact Or.inr (Or.inl h)
    · intro _
      rfl
  · rw [if_neg hval]
    push_neg at hval
    obtain ⟨ht0, htBL⟩ := hval
    have hcast : ((t.toNat : Int)) = t := Int.toNat_of_nonneg ht0
    have htn : t.toNat < s.byteLength := by omega
    obtain ⟨thrown, s', hloop, hWF', h1, h2, h3, hcovmono, hInvpres, hthr⟩ :=
      copyFromLoop_spec source t.toNat (source.length + 1) s t.toNat hWF
        (by omega) (by omega)
    cases thrown with
    | true =>
      rw [hloop]
      refine ⟨true, s', rfl, hWF', h1, h2, h3, ?_, ?_, fun _ => hcovmono,
        fun hI _ => hInvpres hI⟩
      · obtain ⟨hA, hB⟩ := hthr.mp rfl
        constructor
        · intro _
          refine Or.inr (Or.inr ⟨by omega, by omega⟩)
        · intro _
          rfl
      · intro h
        exact absurd h (by omega)
    | false =>
      rw [hloop]
      simp only []
      have hnothr : ¬ (t.toNat < t.toNat + source.length ∧
          s.byteLength < t.toNat + source.length) := by
        intro hc
        exact Bool.false_ne_true (hthr.mpr hc)
      refine ⟨false, _, rfl, ?_, h1, h2, h3, ?_, ?_, ?_, ?_⟩
      · refine ⟨hWF'.bpos, hWF'.lruNodup, hWF'.residentIff, hWF'.lengths,
          hWF'.bounds, hWF'.maxOK, canon_unifySimplify _ _ hWF'.canon, ?_⟩
        intro r hr
        show r.stop ≤ s'.byteLength
        by_cases hne : t.toNat < t.toNat + source.length
        · refine mem_unifyInsert_stop_ub ⟨t.toNat, t.toNat + source.length⟩
            s'.rangesWithData s'.byteLength
            (by show t.toNat + source.length ≤ s'.byteLength; omega)
            (fun z hz => hWF'.rangesBounded z hz) r ?_
          have h7 : unifySimplify ⟨t.toNat, t.toNat + source.length⟩ s'.rangesWithData
              = unifyInsert ⟨t.toNat, t.toNat + source.length⟩ s'.rangesWithData := by
            unfold unifySimplify
            rw [if_pos hne]
          rw [← h7]
          exact hr
        · have h7 : unifySimplify ⟨t.toNat, t.toNat + source.length⟩ s'.rangesWithData
              = s'.rangesWithData := by
            unfold unifySimplify
            rw [if_neg hne]
          rw [h7] at hr
          exact hWF'.rangesBounded r hr
      · constructor
        · intro hc
          exact absurd hc (by simp)
        · intro hc
          rcases hc with hc | hc | hc
          · omega
          · omega
          · exact absurd (by omega : t.toNat < t.toNat + source.length ∧
              s.byteLength < t.toNat + source.length) hnothr
      · intro h
        exact absurd h (by omega)
      · intro h
        exact absurd h (by simp)
      · intro hI hadm
        intro x hx
        have hx2 : (t.toNat ≤ x ∧ x < t.toNat + source.length) ∨
            coversB s'.rangesWithData x = true :=
          (covers_unifySimplify _ _ hWF'.canon.1 x).mp hx
        rcases hx2 with ⟨hxa, hxb⟩ | hxold
        · have hlen0 : 0 < source.length := by omega
          have hinb : t.toNat + source.length ≤ s.byteLength := by omega
          obtain ⟨s'c, hloopc, _, _, _, _, hcontent⟩ :=
            copyFromLoop_content source t.toNat s.byteLength s.blockSize
              s.numberOfBlocks hlen0 hinb
              (by
                intro m hm
                have h8 := hadm m hm
                unfold spanBlocks firstBlockIndex lastBlockIndex at h8
                omega)
              (source.length + 1) 0 s t.toNat hWF rfl rfl rfl (by omega)
              (Or.inl ⟨rfl, rfl⟩)
              (by
                have h8 : t.toNat / s.blockSize
                    ≤ (t.toNat + source.length - 1) / s.blockSize :=
                  Nat.div_le_div_right (by omega)
                omega)
              (by simp)
              (fun y hy1 _ hy3 => absurd hy3 (by omega))
          rw [hloopc] at hloop
          injection hloop with h9
          injection h9 with h9a h9b
          have hres := (hcontent x hxa hxb).2
          rw [h9b] at hres
          show (blookup (x / s'.blockSize) s'.blocks).isSome
          rw [h2]
          exact hres
        · have hres := hInvpres hI x hxold
          show (blookup (x / s'.blockSize) s'.blocks).isSome
          exact hres

theorem spanBlocks_congr (s s' : VLB) (h : s'.blockSize = s.blockSize)
    (t len : Nat) : spanBlocks s' t len = spanBlocks s t len := by
  unfold spanBlocks lastBlockIndex firstBlockIndex
  rw [h]

/-- A single operation preserves well-formedness, the configuration, and —
when any write it performs spans at most the resident bound — the
filled-set invariant. -/
theorem applyOp_preserves (s : VLB) (op : VLBOp) (hWF : WF s)
    (hInv : FilledSubResident s)
    (hadm : ∀ source t, op = VLBOp.write source t →
      ∀ m, s.numberOfBlocks = some m →
        spanBlocks s t.toNat source.length ≤ m) :
    WF (applyOp s op) ∧ FilledSubResident (applyOp s op) ∧
    (applyOp s op).byteLength = s.byteLength ∧
    (applyOp s op).blockSize = s.blockSize ∧
    (applyOp s op).numberOfBlocks = s.numberOfBlocks := by
  cases op with
  | write source t =>
    obtain ⟨thrown, s', heq, hWF', h1, h2, h3, _, _, _, hInv'⟩ :=
      copyFrom_cases s source t hWF
    have happ : applyOp s (VLBOp.write source t) = s' := by
      simp only [applyOp, heq]
    rw [happ]
    exact ⟨hWF', hInv' hInv (hadm source t rfl), h1, h2, h3⟩
  | has a b => exact ⟨hWF, hInv, rfl, rfl, rfl⟩
  | slice a b =>
    cases hsl : sliceVLB s a b with
    | none =>
      have happ : applyOp s (VLBOp.slice a b) = s := by
        simp only [applyOp, hsl]
      rw [happ]
      exact ⟨hWF, hInv, rfl, rfl, rfl⟩
    | some r =>
      obtain ⟨rb, r1, r2⟩ := r
      obtain ⟨hW, hb1, hb2, hb3, hI⟩ := sliceVLB_pres s a b hWF (rb, r1, r2) hsl
      have happ : applyOp s (VLBOp.slice a b) = r1 := by
        simp only [applyOp, hsl]
      rw [happ]
      exact ⟨hW, hI hInv, hb1, hb2, hb3⟩

/-- Operation sequences preserve well-formedness, the configuration, and
the filled-set invariant, when every write in the sequence spans at most
the resident bound. -/
theorem foldl_applyOp_pres (ops : List VLBOp) :
    ∀ s0, WF s0 → FilledSubResident s0 →
    (∀ source t, VLBOp.write source t ∈ ops →
      ∀ m, s0.numberOfBlocks = some m →
        spanBlocks s0 t.toNat source.length ≤ m) →
    WF (ops.foldl applyOp s0) ∧ FilledSubResident (ops.foldl applyOp s0) ∧
    (ops.foldl applyOp s0).byteLength = s0.byteLength ∧
    (ops.foldl applyOp s0).blockSize = s0.blockSize ∧
    (ops.foldl applyOp s0).numberOfBlocks = s0.numberOfBlocks := by
  induction ops with
  | nil =>
    intro s0 hWF hInv _
    exact ⟨hWF, hInv, rfl, rfl, rfl⟩
  | cons op rest ih =>
    intro s0 hWF hInv hadm
    obtain ⟨hW1, hI1, hc1, hc2, hc3⟩ := applyOp_preserves s0 op hWF hInv
      (fun source t hop => hadm source t (by rw [hop]; exact List.mem_cons_self _ _))
    have hstep : (op :: rest).foldl applyOp s0 = rest.foldl applyOp (applyOp s0 op) :=
      rfl
    rw [hstep]
    obtain ⟨hW2, hI2, hd1, hd2, hd3⟩ := ih (applyOp s0 op) hW1 hI1
      (by
        intro source t hmem m hm
        rw [hc3] at hm
        rw [spanBlocks_congr s0 _ hc2]
        exact hadm source t (List.mem_cons_of_mem _ hmem) m hm)
    exact ⟨hW2, hI2, hd1.trans hc1, hd2.trans hc2, hd3.trans hc3⟩

/-- **C6.**  On an initialized source (records in chronological order, as
the bag index yields them) and a duplicate-free topic selection,
`getBackfillMessages` returns: a list sorted by `receiveTime` ascending;
only messages of requested topics, each present in the recording, with
`receiveTime ≤ time`, and each the latest such message of its topic; at
most one message per requested topic; and a message for every requested
topic that has any record at or before `time`. -/
theorem getBackfillMessages_latest_per_topic (records : List BagMsg)
    (topics : List String) (time : Time)
    (hchron : records.Pairwise fun a b => timeLe a.ts b.ts = true)
    (hnd : topics.Nodup) :
    (getBackfillMessages records topics time).Pairwise
        (fun a b => timeLe a.ts b.ts = true) ∧
    (∀ m ∈ getBackfillMessages records topics time,
        m.topic ∈ topics ∧ m ∈ records ∧ timeLe m.ts time = true ∧
        ∀ r ∈ records, r.topic = m.topic → timeLe r.ts time = true →
          timeLe r.ts m.ts = true) ∧
    (∀ tp ∈ topics,
        ((getBackfillMessages records topics time).filter
            fun m => m.topic == tp).length ≤ 1) ∧
    (∀ tp ∈ topics,
        (∃ r ∈ records, r.topic = tp ∧ timeLe r.ts time = true) →
        ∃ m ∈ getBackfillMessages records topics time, m.topic = tp) := by
  have hperm : (getBackfillMessages records topics time).Perm
      (backfillCollect records topics time) := List.perm_insertionSort _ _
  refine ⟨List.sorted_insertionSort _ _, ?_, ?_, ?_⟩
  · intro m hm
    obtain ⟨tp, htp, hpick⟩ :=
      (backfillCollected_mem records topics time m).mp (hperm.mem_iff.mp hm)
    obtain ⟨hmem, htop, hle, hmax⟩ := backfillPick_spec records tp time hchron m hpick
    subst htop
    exact ⟨htp, hmem, hle, hmax⟩
  · intro tp htp
    have := (hperm.filter fun m => m.topic == tp).length_eq
    rw [this]
    exact backfillCollected_filter_le_one records topics time hchron hnd tp
  · rintro tp htp ⟨r, hr, hrt, hrle⟩
    obtain ⟨m, hm⟩ := backfillPick_exists records tp time r hr hrt hrle
    have hmm : m ∈ backfillCollect records topics time :=
      (backfillCollected_mem records topics time m).mpr ⟨tp, htp, hm⟩
    obtain ⟨_, htop, _, _⟩ := backfillPick_spec records tp time hchron m hm
    exact ⟨m, hperm.mem_iff.mpr hmm, htop⟩

/-- **C6, witness.**  A concrete backfill: records
`(/a,1s) (/b,2s) (/a,3s)`, selection `[/a, /b]`, time `2.5s` — topic `/a`
gets a message. -/
theorem getBackfillMessages_latest_per_topic_witness :
    ∃ m ∈ getBackfillMessages
        [{ topic := "/a", ts := ⟨1, 0⟩, payload := 0 },
         { topic := "/b", ts := ⟨2, 0⟩, payload := 1 },
         { topic := "/a", ts := ⟨3, 0⟩, payload := 2 }]
        ["/a", "/b"] ⟨2, 500000000⟩, m.topic = "/a" :=
  (getBackfillMessages_latest_per_topic _ ["/a", "/b"] ⟨2, 500000000⟩
      (by decide) (by decide)).2.2.2 "/a" (by decide)
    ⟨{ topic := "/a", ts := ⟨1, 0⟩, payload := 0 }, by decide, by decide⟩

/-- **C3, counterexample.**  The claim says a read with a negative offset
is rejected even when `length == 0`; but `read` tests `length === 0`
first, so `read(-5, 0)` on an opened file (size 1000, budget 200 MiB)
resolves synchronously with the empty byte sequence instead of being
rejected. -/
theorem read_negative_offset_zero_length_not_rejected :
    readDisposition (1024 * 1024 * 200) 1000 (-5) 0 = .resolveEmpty ∧
    ¬ readDisposition (1024 * 1024 * 200) 1000 (-5) 0 = .reject := by
  decide

/-- **C3, amended.**  On an opened `CachedFilelike`: a call with
`length == 0` returns the empty byte sequence synchronously regardless of
the other arguments; a call with `length ≠ 0` is rejected exactly when
`offset < 0`, `length < 0`, `length > cacheBudget` or
`offset + length > fileSize`, and otherwise enqueued. -/
theorem read_validation_disposition (cacheBudget fileSize offset length : Int) :
    (length = 0 → readDisposition cacheBudget fileSize offset length = .resolveEmpty) ∧
    (length ≠ 0 →
      (readDisposition cacheBudget fileSize offset length = .reject ↔
        (offset < 0 ∨ length < 0 ∨ length > cacheBudget ∨ offset + length > fileSize)) ∧
      (¬(offset < 0 ∨ length < 0 ∨ length > cacheBudget ∨ offset + length > fileSize) →
        readDisposition cacheBudget fileSize offset length = .enqueue)) := by
  unfold readDisposition
  constructor
  · intro h; simp [h]
  · intro h
    constructor
    · split_ifs with h1 h2 h3 h4 <;> simp_all <;> omega
    · intro hn
      push_neg at hn
      obtain ⟨h1, h2, h3, h4⟩ := hn
      split_ifs <;> first | rfl | omega | simp_all

/-- **C3, witness.** -/
theorem read_validation_disposition_witness :
    readDisposition 100 1000 (-1) 7 = .reject ∧ readDisposition 100 1000 3 7 = .enqueue := by
  refine ⟨((read_validation_disposition 100 1000 (-1) 7).2 (by decide)).1.mpr (by decide), ?_⟩
  exact ((read_validation_disposition 100 1000 3 7).2 (by decide)).2 (by decide)

/-- **C7.**  With a listener set, an emission delivers exactly the
accumulated message batch and resets the internal buffer to empty before
any further emission, so an immediately following emission delivers the
empty batch — the same batch is never handed to the listener twice. -/
theorem emitState_drains_messages (s : Player) (h : s.listener = true) :
    (emitStateImpl s).messages = [] ∧
    (emitStateImpl s).emitted = s.emitted ++ [mkSnapshot s] ∧
    (mkSnapshot s).messages = s.messages ∧
    (emitStateImpl (emitStateImpl s)).emitted
      = s.emitted ++ [mkSnapshot s, mkSnapshot (emitStateImpl s)] ∧
    (mkSnapshot (emitStateImpl s)).messages = [] := by
  simp [emitStateImpl, mkSnapshot, h]

/-- **C7, witness.** -/
theorem emitState_drains_messages_witness :
    (emitStateImpl samplePlayer).messages = [] ∧
    (emitStateImpl samplePlayer).emitted
      = samplePlayer.emitted ++ [mkSnapshot samplePlayer] ∧
    (mkSnapshot samplePlayer).messages = samplePlayer.messages ∧
    (emitStateImpl (emitStateImpl samplePlayer)).emitted
      = samplePlayer.emitted
          ++ [mkSnapshot samplePlayer, mkSnapshot (emitStateImpl samplePlayer)] ∧
    (mkSnapshot (emitStateImpl samplePlayer)).messages = [] :=
  emitState_drains_messages samplePlayer rfl

/-- **C5.**  `seekPlayback(t)` on an initialized, live player clamps `t`
to `[startTime, endTime]`; when the clamped time equals the current time
the call is a no-op, otherwise it records the clamped seek target and
schedules `seek-backfill`.  Consequently, on the `[(0,0),(100,0)]`
recording of `samplePlayer`, seeking to `(150,0)` converges to current
time `(100,0)` and then seeking to `(-10,0)` converges to `(0,0)`. -/
theorem seekPlayback_clamps_and_transitions (s : Player) (t st en ct : Time)
    (hst : s.startTime = some st) (hen : s.endTime = some en)
    (hct : s.currentTime = some ct) (hnc : s.nextState ≠ some .close) :
    (tcompare ct (clampTime t st en) = 0 → seekPlayback t s = .ok s) ∧
    (tcompare ct (clampTime t st en) ≠ 0 →
      seekPlayback t s = .ok { s with
        seekTarget := some (clampTime t st en)
        untilTime := none
        nextState := some .seekBackfill
        abortSet := false }) ∧
    seek150.currentTime = some ⟨100, 0⟩ ∧
    seek150thenNeg.currentTime = some ⟨0, 0⟩ := by
  refine ⟨?_, ?_, by decide, by decide⟩
  · intro h
    simp [seekPlayback, hst, hen, hct, h]
  · intro h
    simp [seekPlayback, hst, hen, hct, h, setState, hnc]

/-- **C5, witness.** -/
theorem seekPlayback_clamps_and_transitions_witness :
    seekPlayback ⟨150, 0⟩ samplePlayer
      = .ok { samplePlayer with
          seekTarget := some ⟨100, 0⟩
          untilTime := none
          nextState := some .seekBackfill
          abortSet := false } :=
  (seekPlayback_clamps_and_transitions samplePlayer ⟨150, 0⟩ ⟨0, 0⟩ ⟨100, 0⟩ ⟨0, 0⟩
    rfl rfl rfl (by decide)).2.1 (by decide)

/-- **C4, counterexample.**  After `close()` has been executed (`close`
consumed by the driver, `nextState` cleared), a further
`seekPlayback(50s)` is *not* ignored: its `setState` records
`seek-backfill`, the driver executes it (a state other than `close`), and
two further state emissions reach the listener. -/
theorem setState_after_close_executed_not_ignored :
    closedPlayer.state = .close ∧ closedPlayer.nextState = none ∧
    postCloseSeekPending = some .seekBackfill ∧
    postCloseSeek.state = .idle ∧ ¬ postCloseSeek.state = .close ∧
    closedPlayer.emitted.length = 0 ∧ postCloseSeek.emitted.length = 2 := by
  decide

/-- **C4, amended.**  `setState` calls are ignored exactly while the
`close` state is *pending* (`nextState = 'close'`); executing `stateClose`
stops playback and destroys the iterator, but once the driver has consumed
the `close` state, later `setState` calls are accepted again and may
execute further states and emit further states (as `postCloseSeek`
documents). -/
theorem setState_ignored_while_close_pending (s : Player) (n : PlayerStateTag)
    (h : s.nextState = some .close) :
    setState n s = s ∧
    (stateClose s).isPlaying = false ∧ (stateClose s).playbackIterator = none ∧
    postCloseSeekPending = some .seekBackfill ∧
    postCloseSeek.emitted.length = closedPlayer.emitted.length + 2 := by
  refine ⟨by simp [setState, h], by simp [stateClose], by simp [stateClose], by decide, by decide⟩

/-- **C4, witness.** -/
theorem setState_ignored_while_close_pending_witness :
    setState .play { samplePlayer with nextState := some .close }
      = { samplePlayer with nextState := some .close } :=
  (setState_ignored_while_close_pending { samplePlayer with nextState := some .close }
    .play rfl).1

/-- **C1 (code bug).**  The code evaluated at the failing input: with the
player initialized and playing at current time `(5,0)` in bounds
`[(0,0),(20,0)]` and no `untilTime`, the tick-end time is
`clamp((5,0),(0,0),(20,0)) = (5,0)`; one `tick()` nonetheless installs and
emits the iterator message with `receiveTime = (10,0) > (5,0)` — the drain
loop has no receive-time test, contradicting the claim (and the loop
comment "Read from the iterator through the end of the tick time"). -/
theorem tick_accumulates_past_tickEnd :
    tickReturnedOk = true ∧
    clampTime ⟨5, 0⟩ ⟨0, 0⟩ ⟨20, 0⟩ = (⟨5, 0⟩ : Time) ∧
    tickedPlayer.currentTime = some ⟨5, 0⟩ ∧
    tickedPlayer.emitted.map Snapshot.messages
      = [[{ topic := "/t", ts := ⟨10, 0⟩, payload := 0 }]] ∧
    tcompare ⟨10, 0⟩ ⟨5, 0⟩ > 0 ∧
    tickedPlayer.presence = .PRESENT ∧ tickedPlayer.isPlaying = true := by
  decide

/-- **C2, counterexample.**  Two stream errors within 100 ms and no
reconnect callback: the cache latches closed and rejects the pending read
with the triggering error — but a subsequently issued valid read is
merely enqueued, never rejected: `read` does not consult `closed`, and
`#updateState` (the only settler) is a no-op on a closed cache, so the
promise of the later read never settles. -/
theorem cache_latched_subsequent_read_not_rejected :
    cacheLatched.closed = true ∧
    cacheLatched.settled = [(0, .rejected 7)] ∧
    postLatchRead.2 = .enqueue ∧ ¬ postLatchRead.2 = .reject ∧
    postLatchRead.1.settled = [(0, .rejected 7)] ∧
    updateState postLatchRead.1 = postLatchRead.1 := by
  decide

/-- **C2, amended.**  Without a reconnect callback, a stream error on the
live connection arriving less than 100 ms after the previous error latches
the cache closed and rejects every pending read with the triggering error;
every subsequently issued valid read is enqueued but never settled — its
promise is neither resolved nor rejected, because `#updateState` is the
identity on a closed cache. -/
theorem cache_hard_failure_behaviour (s : CacheSt) (t now e : Nat)
    (hcb : s.keepReconnectingCallback = false) (hcl : s.closed = false)
    (hconn : s.currentConnection.isSome) (hlet : s.lastErrorTime = some t)
    (hwin : now - t < 100) :
    (onStreamError now e s).closed = true ∧
    (onStreamError now e s).settled
      = s.settled ++ s.readRequests.map (fun q => (q.id, ReadOutcome.rejected e)) ∧
    (∀ q ∈ s.readRequests, (q.id, ReadOutcome.rejected e) ∈ (onStreamError now e s).settled) ∧
    (∀ id offset length,
      readDisposition s.cacheSizeInBytes s.fileSize offset length = .enqueue →
      (issueRead id offset length (onStreamError now e s)).2 = .enqueue ∧
      (issueRead id offset length (onStreamError now e s)).1.settled
        = (onStreamError now e s).settled ∧
      updateState (issueRead id offset length (onStreamError now e s)).1
        = (issueRead id offset length (onStreamError now e s)).1) := by
  obtain ⟨c, hc⟩ := Option.isSome_iff_exists.mp hconn
  have hs' : onStreamError now e s
      = { s with
          closed := true
          settled := s.settled ++ s.readRequests.map fun q => (q.id, ReadOutcome.rejected e) } := by
    simp [onStreamError, hc, hcb, hlet, hwin]
  have hclosed : ∀ u : CacheSt, u.closed = true → updateState u = u := by
    intro u hu; simp [updateState, hu]
  refine ⟨by rw [hs'], by rw [hs'], ?_, ?_⟩
  · intro q hq
    rw [hs']
    simp only [List.mem_append, List.mem_map]
    exact Or.inr ⟨q, hq, rfl⟩
  · intro id offset length hd
    have hd' : readDisposition (onStreamError now e s).cacheSizeInBytes
        (onStreamError now e s).fileSize offset length = .enqueue := by
      rw [hs']; exact hd
    have hiss : issueRead id offset length (onStreamError now e s)
        = (updateState { onStreamError now e s with
            readRequests := (onStreamError now e s).readRequests
              ++ [⟨id, offset.toNat, (offset + length).toNat⟩] }, .enqueue) := by
      simp only [issueRead, hd']
    have hcl2 : ({ onStreamError now e s with
        readRequests := (onStreamError now e s).readRequests
          ++ [⟨id, offset.toNat, (offset + length).toNat⟩] } : CacheSt).closed = true := by
      rw [hs']
    rw [hiss, hclosed _ hcl2]
    refine ⟨rfl, by rw [hs'], hclosed _ hcl2⟩

/-- **C2, witness.** -/
theorem cache_hard_failure_behaviour_witness :
    (onStreamError 50 7 cacheA).closed = true :=
  (cache_hard_failure_behaviour cacheA 0 50 7 rfl rfl rfl rfl (by decide)).1

/-- **C8, counterexample.**  A single `copyFrom` of two bytes into a
buffer of three one-byte blocks with at most one resident block succeeds
and records `[0, 2)` as filled, yet block `0` (logical range `[0, 1)`)
has been evicted by the write itself: the filled set is not contained in
the union of the resident blocks' ranges. -/
theorem spanning_write_breaks_filled_subset :
    ((copyFrom (mkVLB 3 (some 1) (some 1)) [7, 8] 0).map fun r =>
      (r.1, coversB r.2.rangesWithData 0, (blookup 0 r.2.blocks).isSome))
      = some (false, true, false) := by rfl

/-- **C8** (amended).  Over every operation sequence in which each write
spans at most the configured maximum number of resident blocks, the
buffer stays well-formed and the filled set stays inside the union of
the logical ranges `[k*blockSize, (k+1)*blockSize)` of the resident
blocks; and whenever `#getBlock` evicts a block `d` (drops it from the
LRU list), the whole logical range of `d` is removed from the filled
set.  Without the span bound the containment fails. -/
theorem vlb_filled_subset_resident (s0 : VLB) (ops : List VLBOp)
    (hWF : WF s0) (hInv : FilledSubResident s0)
    (hadm : ∀ source t, VLBOp.write source t ∈ ops →
      ∀ m, s0.numberOfBlocks = some m →
        spanBlocks s0 t.toNat source.length ≤ m) :
    (WF (ops.foldl applyOp s0) ∧ FilledSubResident (ops.foldl applyOp s0)) ∧
    (∀ (u : VLB) (i d x : Nat), WF u →
      d ∈ u.lastAccessedBlockIndices →
      d ∉ (getBlock u i).1.lastAccessedBlockIndices →
      d * u.blockSize ≤ x → x < (d + 1) * u.blockSize →
      coversB (getBlock u i).1.rangesWithData x = false) := by
  constructor
  · obtain ⟨hW, hI, _, _, _⟩ := foldl_applyOp_pres ops s0 hWF hInv hadm
    exact ⟨hW, hI⟩
  · intro u i d x hWFu hdmem hdnot hx1 hx2
    obtain ⟨_, _, hcases⟩ := getBlock_cases u i hWFu
    have hdt : d ∈ touchLRU u.lastAccessedBlockIndices i :=
      (mem_touchLRU _ _ _).mpr (by
        by_cases hdi : d = i
        · exact Or.inr hdi
        · exact Or.inl ⟨hdmem, hdi⟩)
    rcases hcases with ⟨_, hlru, _, _⟩ |
      ⟨e, rest, htouch, _, _, _, hlru, hranges, _⟩
    · exact absurd (by rw [hlru]; exact hdt) hdnot
    · rw [htouch] at hdt
      rw [List.mem_cons] at hdt
      have hde : d = e := by
        rcases hdt with h | h
        · exact h
        · exact absurd (hlru.symm ▸ h) hdnot
      subst hde
      rw [hranges]
      by_cases hcv : coversB (subtractRanges u.rangesWithData
          ⟨d * u.blockSize, (d + 1) * u.blockSize⟩) x = true
      · obtain ⟨_, hnot⟩ := (covers_subtractRanges _ _ _).mp hcv
        exact absurd ⟨hx1, hx2⟩ hnot
      · exact Bool.eq_false_iff.mpr hcv

/-- **C8, witness.** -/
theorem vlb_filled_subset_resident_witness :
    WF (([VLBOp.write [1, 2] 0] : List VLBOp).foldl applyOp
        (mkVLB 4 (some 2) (some 2))) ∧
      FilledSubResident (([VLBOp.write [1, 2] 0] : List VLBOp).foldl applyOp
        (mkVLB 4 (some 2) (some 2))) :=
  (vlb_filled_subset_resident (mkVLB 4 (some 2) (some 2))
    [VLBOp.write [1, 2] 0]
    (mkVLB_WF 4 (some 2) (some 2) (by decide)
      (by intro m hm; injection hm with h; omega))
    (mkVLB_filledSubResident 4 (some 2) (some 2))
    (by
      intro source t hmem m hm
      rw [List.mem_singleton] at hmem
      injection hmem with hs ht
      subst hs
      subst ht
      injection hm with h
      subst h
      decide)).1

/-- **C9, counterexample.**  Writing `[7, 8]` at offset `0` into a buffer
of three one-byte blocks with at most one resident block and immediately
slicing `[0, 2)` returns `[0, 0]`, not the written bytes: the write
itself evicted block `0`, and the slice then evicted block `1` while
faulting block `0` back in zeroed. -/
theorem write_slice_roundtrip_fails_on_spanning_write :
    (((copyFrom (mkVLB 3 (some 1) (some 1)) [7, 8] 0).bind fun r =>
      (sliceVLB r.2 0 2).map fun q => (r.1, q.1, q.2.2))
      = some (false, false, [0, 0])) ∧ ([0, 0] : List Nat) ≠ [7, 8] := by
  constructor
  · rfl
  · decide

/-- **C9** (amended).  On a well-formed buffer, writing a nonempty
in-bounds `source` at offset `t` and immediately slicing
`[t, t + source.length)` returns `source` byte-for-byte, provided the
write spans at most the configured maximum number of resident blocks
(and the slice length is within the `kMaxLength` slice bound).  Without
the span bound the round-trip fails. -/
theorem copyFrom_slice_roundtrip (s : VLB) (source : List Nat) (t : Nat)
    (hWF : WF s) (hlen0 : 0 < source.length)
    (hinb : t + source.length ≤ s.byteLength)
    (hmax : source.length ≤ kMaxLength)
    (hspan : ∀ m, s.numberOfBlocks = some m →
      spanBlocks s t source.length ≤ m) :
    ∃ s1 s2 data, copyFrom s source (t : Int) = some (false, s1) ∧
      sliceVLB s1 t (t + source.length) = some (false, s2, data) ∧
      data = source := by
  obtain ⟨s1, heq, hWF1, h1, h2, h3, hcontent, hdata⟩ :=
    copyFrom_spec s source t hWF hlen0 hinb hspan
  have hB0 : 0 < s.blockSize := hWF.bpos
  obtain ⟨s2, data, heq2, hlen, hcont⟩ :=
    sliceVLB_reads s1 t (t + source.length) hWF1
      (by omega) (by omega) (by omega) hdata
      (by
        intro i hlo hhi
        rw [h2] at hlo hhi
        by_cases hi : i = t / s.blockSize
        · subst hi
          exact (hcontent t (le_refl t) (by omega)).2
        · have hlt2 : t / s.blockSize < i := by omega
          have h8 : (t / s.blockSize + 1) * s.blockSize
              = s.blockSize * (t / s.blockSize) + s.blockSize := by ring
          have h9 := Nat.mod_add_div t s.blockSize
          have h10 : t % s.blockSize < s.blockSize := Nat.mod_lt t hB0
          have h11 : (t / s.blockSize + 1) * s.blockSize ≤ i * s.blockSize :=
            Nat.mul_le_mul_right _ (by omega)
          have hx1 : t ≤ i * s.blockSize := by omega
          have h12 : i * s.blockSize ≤ t + source.length - 1 :=
            (Nat.le_div_iff_mul_le hB0).mp hhi
          have hx2 : i * s.blockSize < t + source.length := by omega
          have hdiv : i * s.blockSize / s.blockSize = i :=
            Nat.mul_div_cancel i hB0
          have hres := (hcontent (i * s.blockSize) hx1 hx2).2
          rw [hdiv] at hres
          exact hres)
  refine ⟨s1, s2, data, heq, heq2, ?_⟩
  refine list_eq_of_getD data source (by rw [hlen]; omega) ?_
  intro j hj
  rw [hlen] at hj
  rw [hcont j (by omega)]
  have h13 := (hcontent (t + j) (by omega) (by omega)).1
  rw [h13]
  congr 1
  omega

/-- **C9, witness.** -/
theorem copyFrom_slice_roundtrip_witness :
    ∃ s1 s2 data,
      copyFrom (mkVLB 4 (some 2) (some 2)) [9, 8, 7] ((0 : Nat) : Int)
        = some (false, s1) ∧
      sliceVLB s1 0 (0 + [9, 8, 7].length) = some (false, s2, data) ∧
      data = [9, 8, 7] :=
  copyFrom_slice_roundtrip (mkVLB 4 (some 2) (some 2)) [9, 8, 7] 0
    (mkVLB_WF 4 (some 2) (some 2) (by decide)
      (by intro m hm; injection hm with h; omega))
    (by decide) (by decide) (by decide)
    (by
      intro m hm
      injection hm with h
      subst h
      decide)

/-- **C10, counterexample.**  On a buffer of three one-byte blocks with
at most one resident block, prefilled by writing one byte at offset `0`
(filled set `[0, 1)`), the out-of-range write `copyFrom([1,2,3,4], 0)`
throws mid-copy — and the filled set reported afterwards is `[]`, not
the unchanged `[0, 1)`: the copy loop's evictions subtracted the range
before the throw. -/
theorem throwing_copyFrom_changes_ranges :
    ((copyFrom (mkVLB 3 (some 1) (some 1)) [5] 0).bind fun r =>
      (copyFrom r.2 [1, 2, 3, 4] 0).map fun q =>
        (q.1, r.2.rangesWithData, q.2.rangesWithData))
      = some (true, [⟨0, 1⟩], []) := by rfl

/-- **C10** (amended).  On a well-formed buffer, `copyFrom(source,
targetStart)` throws exactly when `targetStart < 0`, or
`targetStart ≥ byteLength`, or the (nonempty) write runs past
`byteLength`; a pre-validation throw leaves the state untouched; and a
throw never grows the filled set — but it can shrink it (through the
copy loop's evictions), so the filled set is not in general unchanged. -/
theorem copyFrom_throw_behaviour (s : VLB) (source : List Nat) (t : Int)
    (hWF : WF s) :
    ∃ thrown s', copyFrom s source t = some (thrown, s') ∧
      (thrown = true ↔ (t < 0 ∨ (s.byteLength : Int) ≤ t ∨
        (0 < source.length ∧ (s.byteLength : Int) < t + source.length))) ∧
      ((t < 0 ∨ (s.byteLength : Int) ≤ t) → s' = s) ∧
      (thrown = true → ∀ x, coversB s'.rangesWithData x = true →
        coversB s.rangesWithData x = true) := by
  obtain ⟨thrown, s', heq, _, _, _, _, hiff, hid, hcov, _⟩ :=
    copyFrom_cases s source t hWF
  exact ⟨thrown, s', heq, hiff, hid, hcov⟩

/-- **C10, witness.** -/
theorem copyFrom_throw_behaviour_witness :
    ∃ thrown s', copyFrom (mkVLB 5 (some 2) none) [1] (-1)
        = some (thrown, s') ∧
      (thrown = true ↔ ((-1 : Int) < 0 ∨
        ((mkVLB 5 (some 2) none).byteLength : Int) ≤ -1 ∨
        (0 < ([1] : List Nat).length ∧
          ((mkVLB 5 (some 2) none).byteLength : Int)
            < -1 + ([1] : List Nat).length))) ∧
      (((-1 : Int) < 0 ∨ ((mkVLB 5 (some 2) none).byteLength : Int) ≤ -1) →
        s' = mkVLB 5 (some 2) none) ∧
      (thrown = true → ∀ x, coversB s'.rangesWithData x = true →
        coversB (mkVLB 5 (some 2) none).rangesWithData x = true) :=
  copyFrom_throw_behaviour (mkVLB 5 (some 2) none) [1] (-1)
    (mkVLB_WF 5 (some 2) none (by decide) (fun m hm => nomatch hm))

end Rosbag
